import Mathlib

/-!
Verification development for the agentpy output module (`src/agentpy/output.py`).

The Python module manages a `DataDict` result store: a dictionary holding
pandas DataFrames, nested `DataDict`s and JSON-style values, and provides
`_combine_vars`, `_combine_pars`, `arrange`, `save`, `_load`, `__eq__` and
`_last_exp_id`.  We shallowly embed these operations in Lean:

* pandas DataFrames become the structure `DF` (named index levels, named
  columns, rows of scalar cells);
* Python scalars become `Scalar` (ints, numpy ints, strings, bools, None;
  floats are outside the model);
* JSON-serializable values become the one-level `JVal`
  (scalar / list of scalars / flat string-keyed mapping), matching the flat
  mappings (`log`, parameter dictionaries) the module actually persists;
* a `DataDict` becomes `Store`, an association list with Python-dict
  insertion semantics; nested stores hold `IVal` values (a table or a JSON
  value), mirroring the two-level shape `save`/`_load` support;
* file contents are kept in parsed form (`FContent`); a CSV file remembers
  its header and its cells, and reading applies pandas' integer type
  inference (`inferS`), abstracting the text rendering;
* filename manipulation (`'variables_' in file`, `file.split('.')`,
  `str.replace`) is carried out verbatim on `List Char`.
-/

/-- Python scalar values appearing in tables and flat mappings.
`npint` is a numpy integer (`np.int64`-style); floats are outside the model. -/
inductive Scalar where
  | int (n : Int)
  | npint (n : Int)
  | str (s : String)
  | bool (b : Bool)
  | null
deriving DecidableEq

/-- One-level JSON-serializable values: a scalar, a list of scalars, or a flat
string-keyed mapping of scalars.  This covers the flat mappings (`log`,
fixed-parameter dicts) the module persists with `json.dump`. -/
inductive JVal where
  | scalar (s : Scalar)
  | list (xs : List Scalar)
  | dict (kvs : List (String × Scalar))
deriving DecidableEq

/-- A pandas DataFrame: named index levels, named columns, and rows, each row
holding its index values and its column values. -/
structure DF where
  idxNames : List String
  cols : List String
  rows : List (List Scalar × List Scalar)
deriving DecidableEq

/-- An entry of a nested `DataDict` (`variables`/`parameters` sub-store):
either a table or a JSON-style value, mirroring what `save` can persist at
that level. -/
inductive IVal where
  | df (d : DF)
  | jsn (j : JVal)
deriving DecidableEq

/-- A value stored at the top level of a `DataDict`. -/
inductive PVal where
  | df (d : DF)
  | dd (sub : List (String × IVal))
  | jsn (j : JVal)
deriving DecidableEq

/-- The sub-dictionary of a nested `DataDict` entry. -/
abbrev SubDict := List (String × IVal)

/-- A `DataDict` result store: an ordered mapping from string keys to values,
with Python-dict update semantics (`insertS`). -/
abbrev Store := List (String × PVal)

/-- Python `None`; `json.load` of `null` yields the same object, so the load
model reuses it for both. -/
def pyNone : IVal := .jsn (.scalar .null)

/-- Dictionary lookup on a store (`self[key]`). -/
def lookupS (k : String) (s : Store) : Option PVal := s.lookup k

/-- Dictionary lookup in a sub-dictionary. -/
def lookupI (k : String) (s : SubDict) : Option IVal := s.lookup k

/-- Python dict assignment `d[k] = v`: overwrite in place if the key exists,
append otherwise. -/
def insertS (st : Store) (k : String) (v : PVal) : Store :=
  if (st.map Prod.fst).contains k then
    st.map (fun p => if p.1 = k then (k, v) else p)
  else st ++ [(k, v)]

/-- Python dict assignment on a sub-dictionary. -/
def insertI (st : SubDict) (k : String) (v : IVal) : SubDict :=
  if (st.map Prod.fst).contains k then
    st.map (fun p => if p.1 = k then (k, v) else p)
  else st ++ [(k, v)]

/- ### Character-list string utilities (Python `in`, `split`, `replace`) -/

/-- `isPre p s`: `p` is a prefix of `s` (character lists). -/
def isPre : List Char → List Char → Bool
  | [], _ => true
  | _ :: _, [] => false
  | a :: as, b :: bs => a = b && isPre as bs

/-- Python substring test `p in s` on character lists. -/
def containsSub (p : List Char) : List Char → Bool
  | [] => p.isEmpty
  | c :: cs => isPre p (c :: cs) || containsSub p cs

/-- Fuel-driven worker for `str.replace`: replaces occurrences of `p` by `r`
left to right. -/
def replFuel (p r : List Char) : Nat → List Char → List Char
  | _, [] => []
  | 0, s => s
  | f + 1, c :: cs =>
    if !p.isEmpty && isPre p (c :: cs) then
      r ++ replFuel p r f ((c :: cs).drop p.length)
    else c :: replFuel p r f cs

/-- Python `s.replace(p, r)` on character lists. -/
def replaceAllL (p r s : List Char) : List Char := replFuel p r s.length s

/-- `s.split(c)` on character lists. -/
def splitOnChar (c : Char) : List Char → List (List Char)
  | [] => [[]]
  | x :: xs =>
    if x = c then [] :: splitOnChar c xs
    else
      match splitOnChar c xs with
      | [] => [[x]]
      | p :: ps => (x :: p) :: ps

/-- `file.split(".")[-1]`: the extension of a filename. -/
def extOf (s : List Char) : List Char := (splitOnChar '.' s).getLastD []

/-- `file[:-(len(ext) + 1)]`: the stem of a filename. -/
def stemOf (s : List Char) : List Char := s.take (s.length - (extOf s).length - 1)

/-- Python `int(s)`: an optional sign followed by at least one digit; anything
else raises `ValueError` (modelled as `none`).  Surrounding whitespace is
outside the model. -/
def parseIntOpt (s : List Char) : Option Int :=
  let digits : List Char → Option Nat := fun l =>
    if l.isEmpty || !l.all Char.isDigit then none
    else some (l.foldl (fun a c => a * 10 + (c.toNat - '0'.toNat)) 0)
  match s with
  | '-' :: rest => (digits rest).map (fun n => -(n : Int))
  | _ => (digits s).map (fun n => (n : Int))

example : containsSub "exp".data "myexp_7".data = true := by decide
example : containsSub "variables_".data "log.json".data = false := by decide
example : replaceAllL "variables_".data [] "variables_Model".data = "Model".data := by
  decide
example : extOf "log.json".data = "json".data := by decide
example : stemOf "log.json".data = "log".data := by decide
example : parseIntOpt "57".data = some 57 := by decide
example : parseIntOpt "-5".data = some (-5) := by decide
example : parseIntOpt "x7".data = none := by decide

/- ### CSV serialization (`DataFrame.to_csv` / `pd.read_csv` + `set_index`) -/

/-- The recognized index-level names of `load_file`
(`i_cols` in `DataDict._load`). -/
def iCols : List String := ["sample_id", "run_id", "scenario", "env_key",
  "agent_id", "obj_id", "t"]

/-- A CSV file in parsed form: the header (index names followed by column
names, as `to_csv` writes them) and the cell grid.  Cells are kept as the
scalars that were rendered; delimiter escaping is abstracted away. -/
structure Csv where
  header : List String
  cells : List (List Scalar)
deriving DecidableEq

/-- `DataFrame.to_csv`: the index levels are written as leading columns. -/
def csvOf (d : DF) : Csv :=
  ⟨d.idxNames ++ d.cols, d.rows.map (fun r => r.1 ++ r.2)⟩

/-- The fragment of pandas `read_csv` type inference the model tracks: a cell
rendered from an integer (plain or numpy) reads back as an integer, and a
string that looks like an integer is converted to one.  Detection of boolean
and NA tokens is not modelled; `dfCanon` keeps such strings out of canonical
tables. -/
def inferS : Scalar → Scalar
  | .str s => match parseIntOpt s.data with
    | some n => .int n
    | none => .str s
  | .npint n => .int n
  | x => x

/-- `pd.read_csv` followed by `set_index` on the recognized index columns
(in `i_cols` order), as `load_file` does for `.csv` files.  All former
columns reappear; the recognized ones move into the index. -/
def readCsv (f : Csv) : DF :=
  let idxN := iCols.filter (fun c => f.header.contains c)
  let colN := f.header.filter (fun c => !(idxN.contains c))
  { idxNames := idxN
    cols := colN
    rows := f.cells.map (fun r =>
      let p := f.header.zip (r.map inferS)
      (idxN.map (fun n => ((p.lookup n).getD .null)),
       colN.map (fun n => ((p.lookup n).getD .null)))) }

/-- Strings that survive a CSV round trip unchanged under pandas inference:
nonempty, not integer-shaped, and none of the boolean/NA/float tokens pandas
special-cases.  (Conservative: excluding more strings than pandas actually
converts only shrinks the canonical class; float-shaped literals beyond
these tokens are outside the model, which carries no float scalars.) -/
def stableStr (s : String) : Bool :=
  !s.isEmpty && (parseIntOpt s.data).isNone &&
  !(["True", "TRUE", "true", "False", "FALSE", "false", "NA", "N/A", "NAN",
     "NaN", "nan", "NULL", "Null", "null", "None", "none", "Inf", "inf",
     "Infinity", "infinity", "INF"].contains s)

/-- Cells that survive a CSV round trip: integers (stored by pandas as
`int64` both before and after) and stable strings. -/
def cellStable : Scalar → Bool
  | .int _ => true
  | .str s => stableStr s
  | _ => false

/-- Canonical tables: a nonempty index drawn from the recognized index names
in their `i_cols` order, data columns disjoint from the index vocabulary,
no duplicate names, well-shaped rows, and round-trip-stable cells. -/
def isSubl : List String → List String → Bool
  | [], _ => true
  | _ :: _, [] => false
  | a :: as, b :: bs => if a = b then isSubl as bs else isSubl (a :: as) bs

/-- Canonicity of a table for the save/load round trip. -/
def dfCanon (d : DF) : Bool :=
  isSubl d.idxNames iCols && !d.idxNames.isEmpty &&
  d.cols.all (fun c => !(iCols.contains c)) &&
  decide ((d.idxNames ++ d.cols).Nodup) &&
  d.rows.all (fun r =>
    r.1.length = d.idxNames.length && r.2.length = d.cols.length &&
    (r.1 ++ r.2).all cellStable)

/- ### JSON serialization (`json.dump` with `NpEncoder` / `json.load`) -/

/-- `NpEncoder` normalization of a scalar: numpy integers become Python
integers; everything else is already JSON-native. -/
def normS : Scalar → Scalar
  | .npint n => .int n
  | x => x

/-- `json.dump`-then-`json.load` normalization of a JSON value. -/
def normJ : JVal → JVal
  | .scalar s => .scalar (normS s)
  | .list xs => .list (xs.map normS)
  | .dict kvs => .dict (kvs.map (fun p => (p.1, normS p.2)))

/- ### `DataDict.save`: files written into the fresh experiment directory -/

/-- Contents of a written file, kept in parsed form. `other` stands for a
file of a foreign format. -/
inductive FContent where
  | csv (f : Csv)
  | json (j : JVal)
  | other
deriving DecidableEq

/-- The files `save` writes for one entry of a nested `DataDict`
(`{key}_{k}.csv` for tables, `{key}_{k}.json` for plain mappings); inner
values that are neither are silently skipped by the source's
`isinstance` dispatch. -/
def innerFiles (k : String) (p : String × IVal) : List (List Char × FContent) :=
  match p.2 with
  | .df d => [(k.data ++ '_' :: p.1.data ++ '.' :: "csv".data, .csv (csvOf d))]
  | .jsn (.dict m) =>
    [(k.data ++ '_' :: p.1.data ++ '.' :: "json".data, .json (normJ (.dict m)))]
  | .jsn _ => []

/-- The files `save` writes for one top-level entry.  A DataFrame entry also
enters the JSON branch (the dispatch uses `if`, not `elif`), but `json.dump`
raises `TypeError` there and the partial file is removed, so the net effect
is the single `.csv` file. -/
def entryFiles : String × PVal → List (List Char × FContent)
  | (k, .df d) => [(k.data ++ '.' :: "csv".data, .csv (csvOf d))]
  | (k, .dd sub) => sub.flatMap (innerFiles k)
  | (k, .jsn j) => [(k.data ++ '.' :: "json".data, .json (normJ j))]

/-- All files `save` writes into the experiment directory, in store order. -/
def saveFiles (S : Store) : List (List Char × FContent) := S.flatMap entryFiles

/- ### `DataDict._load` -/

/-- `load_file`: dispatch on the filename extension; `.csv` parses to a
table with recognized index columns set, `.json` parses to a JSON value
(dicts are wrapped as `AttrDict`, which the model identifies with plain
dicts), any other extension raises `ValueError`.  A parse failure (content
not matching the extension) is an exception as well. -/
def loadFileE (fname : List Char) (c : FContent) : Except Unit IVal :=
  if extOf fname = "csv".data then
    match c with
    | .csv f => .ok (.df (readCsv f))
    | _ => .error ()
  else if extOf fname = "json".data then
    match c with
    | .json j => .ok (.jsn j)
    | _ => .error ()
  else .error ()

/-- `load_file` as called by `_load`: exceptions are caught, reported, and
the function falls through returning `None`. -/
def loadFileVal (fname : List Char) (c : FContent) : IVal :=
  match loadFileE fname c with
  | .ok v => v
  | .error _ => pyNone

/-- The `'variables_'` filename pattern. -/
def vpat : List Char := "variables_".data

/-- The `'parameters_'` filename pattern. -/
def ppat : List Char := "parameters_".data

/-- `self[key][k] = v` with `self[key] = DataDict()` inserted first when the
key is absent, as `_load` does for `variables`/`parameters` files.  If the
existing entry is not a nested store the update is outside the model (the
source would mutate a table or mapping in place) and the store is returned
unchanged; canonical stores never reach that corner. -/
def insertSub (st : Store) (key k : String) (v : IVal) : Store :=
  match lookupS key st with
  | some (.dd sub) =>
    st.map (fun p => if p.1 = key then (key, .dd (insertI sub k v)) else p)
  | some _ => st
  | none => st ++ [(key, .dd [(k, v)])]

/-- Wrap an inner value as a top-level store value. -/
def iToP : IVal → PVal
  | .df d => .df d
  | .jsn j => .jsn j

/-- One step of `_load`'s file loop: dispatch by filename convention
(substring tests for `'variables_'` and `'parameters_'`, otherwise the
stem is a top-level key). -/
def loadStep (st : Store) (f : List Char × FContent) : Store :=
  if containsSub vpat f.1 then
    insertSub st "variables" (String.mk (replaceAllL vpat [] (stemOf f.1)))
      (loadFileVal f.1 f.2)
  else if containsSub ppat f.1 then
    insertSub st "parameters" (String.mk (replaceAllL ppat [] (stemOf f.1)))
      (loadFileVal f.1 f.2)
  else insertS st (String.mk (stemOf f.1)) (iToP (loadFileVal f.1 f.2))

/-- `_load`'s file loop over a directory listing, starting from the empty
store `DataDict()` (the model lists files in creation order). -/
def loadStore (fs : List (List Char × FContent)) : Store :=
  fs.foldl loadStep []

example :
    loadStore (saveFiles [("log", .jsn (.dict [("name", .str "test"),
      ("iterations", .npint 1)]))]) =
    [("log", .jsn (.dict [("name", .str "test"), ("iterations", .int 1)]))] := by
  decide

example :
    loadStore (saveFiles [("variables", .dd [("Model",
      .df ⟨["t"], ["pop"], [([.int 0], [.int 5])]⟩)])]) =
    [("variables", .dd [("Model",
      .df ⟨["t"], ["pop"], [([.int 0], [.int 5])]⟩)])] := by
  decide

example :
    loadStore (saveFiles [("x", .dd [("y", .jsn (.scalar (.str "hello")))])]) =
    [] := by decide

deriving instance DecidableEq for Except

/- ### `DataDict.__eq__` -/

/-- Python `==` on scalars: numeric cross-type equality (a numpy integer, a
Python integer and a boolean compare by value), strings and `None` by
identity of kind and value, everything else unequal. -/
def scalarEq : Scalar → Scalar → Bool
  | .int a, .int b => a == b
  | .int a, .npint b => a == b
  | .npint a, .int b => a == b
  | .npint a, .npint b => a == b
  | .bool a, .bool b => a == b
  | .bool a, .int b => (if a then (1 : Int) else 0) == b
  | .bool a, .npint b => (if a then (1 : Int) else 0) == b
  | .int a, .bool b => a == (if b then (1 : Int) else 0)
  | .npint a, .bool b => a == (if b then (1 : Int) else 0)
  | .str a, .str b => a == b
  | .null, .null => true
  | _, _ => false

/-- Python dict `==` on flat mappings: equal sizes, and every key of the left
found on the right with an equal value (key-set based, order-insensitive). -/
def dictEq (a b : List (String × Scalar)) : Bool :=
  a.length == b.length &&
  a.all (fun p => match b.lookup p.1 with
    | some w => scalarEq p.2 w
    | none => false)

/-- Python `==` on JSON-style values. -/
def jEq : JVal → JVal → Bool
  | .scalar a, .scalar b => scalarEq a b
  | .list a, .list b =>
    a.length == b.length && (a.zip b).all (fun p => scalarEq p.1 p.2)
  | .dict a, .dict b => dictEq a b
  | _, _ => false

/-- `self[key] == other[key]` inside `DataDict.__eq__` for inner values.
A table compares with `DataFrame.equals` (content equality, `False` against a
non-table); comparing a mapping or scalar against a table raises
(`bool()` of an element-wise comparison frame), modelled as `Except.error`. -/
def iValEqE : IVal → IVal → Except Unit Bool
  | .df a, .df b => .ok (a == b)
  | .df _, .jsn _ => .ok false
  | .jsn a, .jsn b => .ok (jEq a b)
  | .jsn _, .df _ => .error ()

/-- `DataDict.__eq__` on two nested sub-stores: iterate the left entries,
fail on a missing key or an unequal value, succeed otherwise (keys present
only on the right are never examined). -/
def subEqE : SubDict → SubDict → Except Unit Bool
  | [], _ => .ok true
  | p :: rest, t =>
    match t.lookup p.1 with
    | none => .ok false
    | some w =>
      match iValEqE p.2 w with
      | .error e => .error e
      | .ok false => .ok false
      | .ok true => subEqE rest t

/-- `self[key] == other[key]` for top-level values of `DataDict.__eq__`.
A scalar, list or mapping compared against a nested `DataDict` is `False`
without any content comparison: `DataDict` is a dict subclass overriding
`__eq__`, so the reflected `DataDict.__eq__` runs first and its
`isinstance` check fails for any non-`DataDict` left operand. -/
def pValEqE : PVal → PVal → Except Unit Bool
  | .df a, .df b => .ok (a == b)
  | .df _, _ => .ok false
  | .dd a, .dd b => subEqE a b
  | .dd _, _ => .ok false
  | .jsn _, .df _ => .error ()
  | .jsn a, .jsn b => .ok (jEq a b)
  | .jsn _, .dd _ => .ok false

/-- `DataDict.__eq__` between two stores: iterate the left store's entries in
order, returning `False` at the first missing key or unequal value; a raising
comparison aborts the whole equality test. -/
def ddEqE : Store → Store → Except Unit Bool
  | [], _ => .ok true
  | p :: rest, t =>
    match lookupS p.1 t with
    | none => .ok false
    | some w =>
      match pValEqE p.2 w with
      | .error e => .error e
      | .ok false => .ok false
      | .ok true => ddEqE rest t

example : ddEqE [] [("x", .jsn (.scalar (.int 1)))] = .ok true := by decide
example : ddEqE [("x", .jsn (.scalar (.int 1)))] [] = .ok false := by decide

/- ### `DataDict._combine_pars` -/

/-- `self.log` viewed as a flat mapping; the model restricts `log` to a flat
scalar mapping (the shape the module writes and reloads). -/
def logDict (S : Store) : Option (List (String × Scalar)) :=
  match lookupS "log" S with
  | some (.jsn (.dict m)) => some m
  | _ => none

/-- `dfp[k] = v`: append a constant-valued column (an empty frame stays
empty: pandas broadcasts over zero rows). -/
def addFixedCol (t : List String × List (List Scalar)) (p : String × Scalar) :
    List String × List (List Scalar) :=
  (t.1 ++ [p.1], t.2.map (fun r => r ++ [p.2]))

/-- Cases 0-4 of `_combine_pars`: assemble the raw parameter table (columns
and row data; the original row index is irrelevant because the caller ends
with `reset_index(drop=True)`).  `none` models `dfp is None`;
`Except.error` models the `TypeError` for unsupported shapes and attribute
errors on a malformed nested store. -/
def parsBase : PVal → Bool → Bool →
    Except Unit (Option (List String × List (List Scalar)))
  | .dd sub, varied, fixed =>
    match (if varied then
        match lookupI "varied" sub with
        | some (.df d) => Except.ok (d.cols, d.rows.map Prod.snd)
        | _ => Except.error ()
      else Except.ok ([], [])) with
    | .error e => .error e
    | .ok start =>
      if fixed then
        match lookupI "fixed" sub with
        | some (.jsn (.dict m)) => Except.ok (some (m.foldl addFixedCol start))
        | _ => Except.error ()
      else Except.ok (some start)
  | .jsn (.dict m), _, fixed =>
    Except.ok (if fixed then
      (if m.isEmpty then some ([], [])
       else some (m.map Prod.fst, [m.map Prod.snd]))
    else none)
  | .df d, varied, _ =>
    Except.ok (if varied then some (d.cols, d.rows.map Prod.snd) else none)
  | _, _, _ => Except.error ()

/-- `DataDict._combine_pars`: assemble the parameter table, cancel on `None`
or an exactly `(0, 0)` shape, then replicate the whole table once per
iteration (`pd.concat([dfp] * iterations)`) when `log.iterations > 1`, and
re-index with a fresh zero-based `run_id`. -/
def combinePars (S : Store) (varied fixed : Bool) : Except Unit (Option DF) :=
  match lookupS "parameters" S with
  | none => Except.ok none
  | some p =>
    match parsBase p varied fixed with
    | .error e => .error e
    | .ok none => Except.ok none
    | .ok (some t) =>
      if t.1.isEmpty && t.2.isEmpty then Except.ok none
      else
        match logDict S with
        | none => Except.error ()
        | some lm =>
          let n : Nat :=
            match lm.lookup "iterations" with
            | some (.int k) => if k > 1 then k.toNat else 1
            | some (.npint k) => if k > 1 then k.toNat else 1
            | _ => 1
          let rows := (List.replicate n t.2).flatten
          Except.ok (some ⟨["run_id"], t.1,
            rows.enum.map (fun q => ([Scalar.int q.1], q.2))⟩)

example :
    combinePars
      [("log", .jsn (.dict [("iterations", .int 3)])),
       ("parameters", .df ⟨["sample_id"], ["x"],
         [([.int 0], [.int 1]), ([.int 1], [.int 2])]⟩)] true true =
    .ok (some ⟨["run_id"], ["x"],
      [([.int 0], [.int 1]), ([.int 1], [.int 2]), ([.int 2], [.int 1]),
       ([.int 3], [.int 2]), ([.int 4], [.int 1]), ([.int 5], [.int 2])]⟩) := by
  decide

/- ### `DataDict._combine_vars` and `arrange` -/

/-- A selector argument (`'all'` or a list of names; `make_list` wrapping of a
single string is folded into the list form). -/
inductive Filt where
  | all
  | names (l : List String)
deriving DecidableEq

/-- `df[k] = v` on a table: append a constant column. -/
def addConstCol (d : DF) (k : String) (v : Scalar) : DF :=
  ⟨d.idxNames, d.cols ++ [k], d.rows.map (fun r => (r.1, r.2 ++ [v]))⟩

/-- Python `list.insert(-1, a)`: insert immediately before the last element
(or into the empty list). -/
def insBL (l : List α) (a : α) : List α :=
  l.take (l.length - 1) ++ a :: l.drop (l.length - 1)

/-- The in-place effect of `df['obj_id'] = 0` on the stored model-type
variables table (`df` aliases `self.variables[model_type]`): the table gains
a constant `obj_id` column while keeping its original index. -/
def mutVars (S : Store) (mt : String) : Store :=
  S.map (fun q =>
    if q.1 = "variables" then
      (q.1, match q.2 with
        | .dd sub => .dd (sub.map (fun p =>
            if p.1 = mt then
              (p.1, match p.2 with
                | .df d => .df (addConstCol d "obj_id" (.int 0))
                | x => x)
            else p))
        | x => x)
    else q)

/-- `pd.concat(df_dict)` for a mapping of object types to tables: stack the
rows with the dict key as a new leading index level, renamed `obj_type`.
`pd.concat` on frames with differing index level names or column sets
performs union/NaN alignment; the model covers the aligned case (the shape
the `obj_id` insertion exists to establish) and treats the rest as out of
scope (`Except.error`). -/
def concatTyped (dfs : List (String × DF)) : Except Unit DF :=
  match dfs with
  | [] => .error ()
  | (_, d) :: rest =>
    if rest.all (fun p => p.2.idxNames == d.idxNames && p.2.cols == d.cols) then
      .ok ⟨"obj_type" :: d.idxNames, d.cols,
        dfs.flatMap (fun p => p.2.rows.map (fun r => (Scalar.str p.1 :: r.1, r.2)))⟩
    else .error ()

/-- `df[make_list(var_keys)]`: select the requested columns, in the requested
order; a missing column raises `KeyError`. -/
def selectCols (d : DF) (ks : List String) : Except Unit DF :=
  if ks.all (fun k => d.cols.contains k) then
    .ok ⟨d.idxNames, ks,
      d.rows.map (fun r =>
        (r.1, ks.map (fun k => ((d.cols.zip r.2).lookup k).getD .null)))⟩
  else .error ()

/-- The reshaping `df['obj_id'] = 0; df.reset_index(); df.set_index(indexes)`
applied to the local copy of the model-type table: the `obj_id` level, with
constant value 0, lands immediately before the last index level. -/
def objIdInsert (d : DF) : DF :=
  ⟨insBL d.idxNames "obj_id", d.cols,
    d.rows.map (fun r => (insBL r.1 (.int 0), r.2))⟩

/-- Extract the per-object-type tables of `df_dict`, left to right; a value
that is not a table fails downstream in the source (at `.columns` or in
`pd.concat`), modelled as `Except.error`. -/
def asDFs : SubDict → Except Unit (List (String × DF))
  | [] => .ok []
  | p :: rest =>
    match p.2 with
    | .df d =>
      match asDFs rest with
      | .error e => .error e
      | .ok ds => .ok ((p.1, d) :: ds)
    | .jsn _ => .error ()

/-- The multi-category branch of `_combine_vars` (from `df_dict = dict(vs)`
onward): filter by variable keys and object types, insert the `obj_id`
level for the model-type table — mutating the stored table in place —
then concatenate with a leading `obj_type` level and select the requested
columns. -/
def combineVarsMulti (S : Store) (sub : SubDict) (objTypes varKeys : Filt) :
    Except Unit (Option DF × Store) :=
  match asDFs sub with
  | .error e => .error e
  | .ok dfs0 =>
    let dfs1 := match varKeys with
      | .all => dfs0
      | .names ks =>
        dfs0.filter (fun p => ks.any (fun x => p.2.cols.contains x))
    let dfs := match objTypes with
      | .all => dfs1
      | .names ts => dfs1.filter (fun p => ts.contains p.1)
    match logDict S with
    | none => .error ()
    | some lm =>
      match lm.lookup "model_type" with
      | some (.str mt) =>
        let dfs' :=
          if (dfs.map Prod.fst).contains mt then
            dfs.map (fun p => if p.1 = mt then (p.1, objIdInsert p.2) else p)
          else dfs
        let S' := if (dfs.map Prod.fst).contains mt then mutVars S mt else S
        if dfs'.isEmpty then Except.ok (none, S')
        else
          match concatTyped dfs' with
          | .error e => .error e
          | .ok cdf =>
            match varKeys with
            | .all => Except.ok (some cdf, S')
            | .names ks =>
              match selectCols cdf ks with
              | .error e => .error e
              | .ok sel => Except.ok (some sel, S')
      | _ => .error ()

/-- `DataDict._combine_vars`, returning the combined table (if any) together
with the store after the call (the multi-category branch mutates the stored
model-type table in place).  A `variables` entry that is neither a table nor
a mapping of tables fails downstream in the source (`TypeError` or attribute
errors); the model reports those shapes as `Except.error`. -/
def combineVars (S : Store) (objTypes varKeys : Filt) :
    Except Unit (Option DF × Store) :=
  match lookupS "variables" S with
  | none => .ok (none, S)
  | some (.df d) => .ok (some d, S)
  | some (.jsn _) => .error ()
  | some (.dd sub) =>
    match sub with
    | [(_, .df d)] => .ok (some d, S)
    | [(_, .jsn _)] => .error ()
    | _ => combineVarsMulti S sub objTypes varKeys

/-- `df.reset_index()`: move all index levels into leading plain columns. -/
def resetIdx (d : DF) : DF :=
  ⟨[], d.idxNames ++ d.cols, d.rows.map (fun r => ([], r.1 ++ r.2))⟩

/-- Step 5 of `arrange`: restrict rows to the requested scenarios when a
`scenario` index level exists, a no-op otherwise. -/
def scenFilterDF (scenarios : Filt) (d : DF) : DF :=
  match scenarios with
  | .all => d
  | .names ss =>
    if d.idxNames.contains "scenario" then
      ⟨d.idxNames, d.cols, d.rows.filter (fun r =>
        match (d.idxNames.zip r.1).lookup "scenario" with
        | some (.str s) => ss.contains s
        | _ => false)⟩
    else d

/-- `DataDict.arrange` with the `measures` and `parameters` selectors left at
their default `None` (steps 2-3 and the parameter merge, which can write
through an aliased stored table, are outside this model): combine variables,
filter scenarios, and flatten the index unless `index` is set.  The store
after the call is threaded from `_combine_vars`. -/
def arrange (S : Store) (varSel : Option Filt) (objTypes scenarios : Filt)
    (index : Bool) : Except Unit (Option DF × Store) :=
  match varSel with
  | none => Except.ok (none, S)
  | some vf =>
    match combineVars S objTypes vf with
    | .error e => .error e
    | .ok (none, S2) => Except.ok (none, S2)
    | .ok (some df, S2) =>
      let df := scenFilterDF scenarios df
      Except.ok (some (if index then df else resetIdx df), S2)

/- ### `_last_exp_id` and the `save` directory collision -/

/-- Python `max` over a nonempty list. -/
def maxIds (l : List Int) : Int := l.foldl max (l.headD 0)

/-- The list comprehension `[int(s.split('_')[-1]) for s in exp_dirs]`:
parse each name's text after its last underscore with `int`, left to right,
raising `ValueError` (modelled as `Except.error`) at the first failure. -/
def parseIds : List String → Except Unit (List Int)
  | [] => .ok []
  | s :: rest =>
    match parseIntOpt ((splitOnChar '_' s.data).getLastD []) with
    | none => .error ()
    | some n =>
      match parseIds rest with
      | .error e => .error e
      | .ok ns => .ok (n :: ns)

/-- `_last_exp_id`: among the directory names that contain `name` as a
substring, take the text after the last underscore, parse it with `int`,
and return the maximum (`0` when no name contains `name`). -/
def lastExpId (name : String) (dirs : List String) : Except Unit Int :=
  let expDirs := dirs.filter (fun s => containsSub name.data s.data)
  if expDirs.isEmpty then .ok 0
  else
    match parseIds expDirs with
    | .error e => .error e
    | .ok ids => .ok (maxIds ids)

/-- The id `save` chooses when none is passed:
`_last_exp_id(exp_name, path) + 1`. -/
def newExpId (name : String) (dirs : List String) : Except Unit Int :=
  (lastExpId name dirs).map (· + 1)

/-- Modelled from the claim: the id is `max(N) + 1` over exactly those
sibling directory names of the exact form `{exp_name}_{N}` with `N` an
integer literal (`1` if none match). -/
def specNewExpId (name : String) (dirs : List String) : Int :=
  let ids := dirs.filterMap (fun d =>
    if isPre (name.data ++ ['_']) d.data then
      parseIntOpt (d.data.drop (name.data.length + 1))
    else none)
  if ids.isEmpty then 1 else maxIds ids + 1

/-- A file system for `save`: existing experiment directories, each with its
files.  Base-directory bootstrapping (`if path not in listdir()`) does not
affect collision behavior and is omitted. -/
abbrev FS := List (String × List (List Char × FContent))

/-- The target directory `{path}/{exp_name}_{exp_id}` with spaces replaced by
underscores. -/
def expDirPath (base name : String) (id : Int) : String :=
  base ++ "/" ++ String.mk (replaceAllL [' '] ['_'] name.data) ++ "_" ++ toString id

/-- `DataDict.save` with explicit name and id: `makedirs` raises
`FileExistsError` when the experiment directory already exists — before any
file is written, so an error leaves the file system unchanged; otherwise the
fresh directory is populated with the entry files. -/
def saveStore (S : Store) (name : String) (id : Int) (base : String)
    (fs : FS) : Except Unit FS :=
  let p := expDirPath base name id
  if (fs.map Prod.fst).contains p then Except.error ()
  else Except.ok (fs ++ [(p, saveFiles S)])

example : expDirPath "ap_output" "my exp" 2 = "ap_output/my_exp_2" := by decide
example : newExpId "exp" ["myexp_7"] = .ok 8 := by decide
example : specNewExpId "exp" ["myexp_7"] = 1 := by decide
example :
    combineVars [("log", .jsn (.dict [("model_type", .str "Model")])),
      ("variables", .dd [("Model", .df ⟨["t"], ["x"], [([.int 0], [.int 1])]⟩),
        ("Agent", .df ⟨["obj_id", "t"], ["x"],
          [([.int 1, .int 0], [.int 7])]⟩)])] .all .all =
    .ok (some ⟨["obj_type", "obj_id", "t"], ["x"],
        [([.str "Model", .int 0, .int 0], [.int 1]),
         ([.str "Agent", .int 1, .int 0], [.int 7])]⟩,
      [("log", .jsn (.dict [("model_type", .str "Model")])),
       ("variables", .dd [("Model", .df ⟨["t"], ["x", "obj_id"],
           [([.int 0], [.int 1, .int 0])]⟩),
         ("Agent", .df ⟨["obj_id", "t"], ["x"],
           [([.int 1, .int 0], [.int 7])]⟩)])]) := by decide

/- ### Canonical stores and the reconstruction map for the round trip -/

/-- A filename free of dots (so the stem/extension split recovers it). -/
def dotFree (l : List Char) : Bool := !(l.contains '.')

/-- Canonicity of one entry of a nested sub-store under key `k`:
a dot-free inner key free of the two filename patterns, and a value `save`
can persist at that level (a canonical table or a flat mapping); for the
`parameters` sub-store the produced filename must also not accidentally
match the `'variables_'` pattern, which `_load` tests first. -/
def innerCanon (k : String) (p : String × IVal) : Bool :=
  dotFree p.1.data &&
  !(containsSub vpat p.1.data) && !(containsSub ppat p.1.data) &&
  (match p.2 with
   | .df d => dfCanon d &&
     (if k = "parameters" then
        !(containsSub vpat (k.data ++ '_' :: p.1.data ++ '.' :: "csv".data))
      else true)
   | .jsn (.dict _) =>
     (if k = "parameters" then
        !(containsSub vpat (k.data ++ '_' :: p.1.data ++ '.' :: "json".data))
      else true)
   | .jsn _ => false)

/-- Canonicity of one top-level entry: tables and JSON values live under a
dot-free key whose produced filename matches neither nested-store pattern;
nested stores live only under the two keys `_load` reassembles, are
nonempty, have no duplicate inner keys, and hold canonical inner entries. -/
def entryCanon : String × PVal → Bool
  | (k, .df d) => dfCanon d && dotFree k.data &&
    !(containsSub vpat (k.data ++ '.' :: "csv".data)) &&
    !(containsSub ppat (k.data ++ '.' :: "csv".data))
  | (k, .jsn _) => dotFree k.data &&
    !(containsSub vpat (k.data ++ '.' :: "json".data)) &&
    !(containsSub ppat (k.data ++ '.' :: "json".data))
  | (k, .dd sub) => (k == "variables" || k == "parameters") &&
    !sub.isEmpty && decide ((sub.map Prod.fst).Nodup) && sub.all (innerCanon k)

/-- Canonical stores: distinct keys, each entry canonical.  This is the class
of stores whose save output `_load` can reassemble. -/
def canonicalStore (S : Store) : Bool :=
  decide ((S.map Prod.fst).Nodup) && S.all entryCanon

/-- What loading gives back for an inner value: tables unchanged, mappings
with numpy numbers normalized. -/
def reconI : IVal → IVal
  | .df d => .df d
  | .jsn j => .jsn (normJ j)

/-- What loading gives back for a top-level entry: tables content-equal,
JSON values normalized, nested stores reassembled entrywise. -/
def recon : String × PVal → String × PVal
  | (k, .df d) => (k, .df d)
  | (k, .dd sub) => (k, .dd (sub.map (fun p => (p.1, reconI p.2))))
  | (k, .jsn j) => (k, .jsn (normJ j))

/-- The round trip stated by the claim, for a given store: loading the saved
files yields a store whose table entries are content-equal and whose
scalar/mapping entries are value-equal up to numeric-type normalization. -/
def roundtripClaim (S : Store) : Prop := loadStore (saveFiles S) = S.map recon

example : canonicalStore
    [("log", .jsn (.dict [("name", .str "test"), ("iterations", .npint 1)])),
     ("variables", .dd [("Model", .df ⟨["t"], ["pop"], [([.int 0], [.int 5])]⟩)]),
     ("parameters", .dd [("fixed", .jsn (.dict [("x", .int 1)])),
        ("varied", .df ⟨["sample_id"], ["y"], [([.int 0], [.int 2])]⟩)]),
     ("measures", .df ⟨["run_id"], ["final"], [([.int 0], [.int 9])]⟩)] = true := by
  decide

/- ### Lemmas about the character-list utilities -/

theorem isPre_append (p r : List Char) : isPre p (p ++ r) = true := by
  induction p with
  | nil => rfl
  | cons a as ih => simp [isPre, ih]

theorem containsSub_of_isPre {p s : List Char} (h : isPre p s = true) :
    containsSub p s = true := by
  cases s with
  | nil =>
    cases p with
    | nil => rfl
    | cons a as => simp [isPre] at h
  | cons c cs => simp [containsSub, h]

theorem isPre_false_of_containsSub {p s : List Char}
    (h : containsSub p s = false) : isPre p s = false := by
  cases s with
  | nil =>
    cases p with
    | nil => simp [containsSub] at h
    | cons a as => rfl
  | cons c cs =>
    simp [containsSub] at h
    exact h.1

theorem containsSub_tail {p : List Char} {c : Char} {cs : List Char}
    (h : containsSub p (c :: cs) = false) : containsSub p cs = false := by
  simp [containsSub] at h
  exact h.2

theorem replFuel_no_occ (p r : List Char) (f : Nat) (s : List Char)
    (h : containsSub p s = false) : replFuel p r f s = s := by
  induction f generalizing s with
  | zero => cases s <;> rfl
  | succ f ih =>
    cases s with
    | nil => rfl
    | cons c cs =>
      rw [replFuel, isPre_false_of_containsSub h]
      simp [ih cs (containsSub_tail h)]

theorem replaceAllL_cancel (p k : List Char) (hp : p ≠ [])
    (h : containsSub p k = false) : replaceAllL p [] (p ++ k) = k := by
  cases p with
  | nil => exact absurd rfl hp
  | cons a as =>
    show replFuel (a :: as) [] ((a :: as) ++ k).length ((a :: as) ++ k) = k
    have hlen : ((a :: as) ++ k).length = (as ++ k).length + 1 := by
      simp
    rw [hlen]
    have hcons : (a :: as) ++ k = a :: (as ++ k) := rfl
    rw [hcons, replFuel]
    have hpre : isPre (a :: as) (a :: (as ++ k)) = true := isPre_append _ _
    simp only [List.isEmpty_cons, Bool.not_false, hpre, Bool.and_self, if_pos]
    have hdrop : (a :: (as ++ k)).drop (a :: as).length = k := by
      have : a :: (as ++ k) = (a :: as) ++ k := rfl
      rw [this]
      simpa using List.drop_left (a :: as) k
    rw [hdrop, List.nil_append]
    exact replFuel_no_occ _ _ _ _ h

theorem splitOnChar_ne_nil (c : Char) (s : List Char) :
    splitOnChar c s ≠ [] := by
  cases s with
  | nil => simp [splitOnChar]
  | cons x xs =>
    rw [splitOnChar]
    by_cases h : x = c
    · simp [h]
    · simp only [h, if_neg, if_false]
      cases hs : splitOnChar c xs <;> simp

theorem splitOnChar_no_occ (c : Char) (s : List Char) (h : c ∉ s) :
    splitOnChar c s = [s] := by
  induction s with
  | nil => rfl
  | cons x xs ih =>
    rw [splitOnChar]
    have hx : ¬ x = c := fun hxc => h (hxc ▸ List.mem_cons_self x xs)
    rw [if_neg hx, ih (fun hc => h (List.mem_cons_of_mem x hc))]

theorem splitOnChar_two_of_mem (c : Char) (s : List Char)
    (h : c ∈ s) : 2 ≤ (splitOnChar c s).length := by
  induction s with
  | nil => simp at h
  | cons x xs ih =>
    rw [splitOnChar]
    by_cases hx : x = c
    · simp only [hx, if_pos]
      have := splitOnChar_ne_nil c xs
      cases hs : splitOnChar c xs with
      | nil => exact absurd hs this
      | cons p ps => simp
    · rw [if_neg hx]
      have hxs : c ∈ xs := by
        rcases List.mem_cons.mp h with h1 | h2
        · exact absurd h1.symm hx
        · exact h2
      have := ih hxs
      cases hs : splitOnChar c xs with
      | nil => exact absurd hs (splitOnChar_ne_nil c xs)
      | cons p ps =>
        rw [hs] at this
        simpa using this

theorem dotFree_iff (l : List Char) : dotFree l = true ↔ '.' ∉ l := by
  simp [dotFree, List.elem_iff]

theorem dotFree_append (a b : List Char) :
    dotFree (a ++ b) = (dotFree a && dotFree b) := by
  by_cases ha : '.' ∈ a
  · have : ¬ dotFree a = true := fun h => (dotFree_iff a).mp h ha
    have hab : '.' ∈ a ++ b := List.mem_append_left b ha
    have : dotFree (a ++ b) = false := by
      cases h : dotFree (a ++ b) with
      | false => rfl
      | true => exact absurd ((dotFree_iff _).mp h hab) (fun x => x)
    rw [this]
    cases h2 : dotFree a with
    | false => rfl
    | true => exact absurd ((dotFree_iff _).mp h2 ha) (fun x => x)
  · by_cases hb : '.' ∈ b
    · have hab : '.' ∈ a ++ b := List.mem_append_right a hb
      have h1 : dotFree (a ++ b) = false := by
        cases h : dotFree (a ++ b) with
        | false => rfl
        | true => exact absurd ((dotFree_iff _).mp h hab) (fun x => x)
      have h2 : dotFree b = false := by
        cases h : dotFree b with
        | false => rfl
        | true => exact absurd ((dotFree_iff _).mp h hb) (fun x => x)
      rw [h1, h2, Bool.and_false]
    · have h1 : dotFree (a ++ b) = true := (dotFree_iff _).mpr (by
        intro hm
        rcases List.mem_append.mp hm with h | h
        · exact ha h
        · exact hb h)
      have h2 : dotFree a = true := (dotFree_iff _).mpr ha
      have h3 : dotFree b = true := (dotFree_iff _).mpr hb
      rw [h1, h2, h3]
      rfl

theorem getLastD_split_append (c : Char) (xs ys : List Char) :
    (splitOnChar c (xs ++ c :: ys)).getLastD [] =
    (splitOnChar c ys).getLastD [] := by
  induction xs with
  | nil =>
    rw [List.nil_append, splitOnChar, if_pos rfl]
    cases hs : splitOnChar c ys with
    | nil => exact absurd hs (splitOnChar_ne_nil c ys)
    | cons p ps => simp
  | cons x xs ih =>
    rw [List.cons_append, splitOnChar]
    by_cases hx : x = c
    · rw [if_pos hx]
      cases hs : splitOnChar c (xs ++ c :: ys) with
      | nil => exact absurd hs (splitOnChar_ne_nil c _)
      | cons p ps =>
        rw [hs] at ih
        simpa using ih
    · rw [if_neg hx]
      have hmem : c ∈ xs ++ c :: ys := List.mem_append_right xs (List.mem_cons_self c ys)
      have h2 := splitOnChar_two_of_mem c _ hmem
      cases hs : splitOnChar c (xs ++ c :: ys) with
      | nil => exact absurd hs (splitOnChar_ne_nil c _)
      | cons p ps =>
        rw [hs] at ih h2
        cases ps with
        | nil => simp at h2
        | cons q qs => simpa using ih

theorem extOf_mk (b e : List Char) (hb : dotFree b = true)
    (he : dotFree e = true) : extOf (b ++ '.' :: e) = e := by
  rw [extOf, getLastD_split_append,
    splitOnChar_no_occ '.' e ((dotFree_iff e).mp he)]
  rfl

theorem stemOf_mk (b e : List Char) (hb : dotFree b = true)
    (he : dotFree e = true) : stemOf (b ++ '.' :: e) = b := by
  rw [stemOf, extOf_mk b e hb he]
  have hlen : (b ++ '.' :: e).length - e.length - 1 = b.length := by
    simp only [List.length_append, List.length_cons]
    omega
  rw [hlen]
  have := List.take_left b ('.' :: e)
  simpa using this

/- ### Lemmas for the CSV round trip -/

theorem contains_true_of_mem {α : Type} [BEq α] [LawfulBEq α] {l : List α}
    {c : α} (h : c ∈ l) : l.contains c = true := List.elem_iff.mpr h

theorem contains_false_of_not_mem {α : Type} [BEq α] [LawfulBEq α]
    {l : List α} {c : α} (h : c ∉ l) : l.contains c = false := by
  cases hc : l.contains c with
  | false => rfl
  | true => exact absurd (List.elem_iff.mp hc) h

theorem contains_append {α : Type} [BEq α] (a b : List α) (c : α) :
    (a ++ b).contains c = (a.contains c || b.contains c) := by
  simp only [List.contains_eq_any_beq, List.any_append]

theorem mem_of_isSubl {xs ys : List String} (h : isSubl xs ys = true) :
    ∀ x ∈ xs, x ∈ ys := by
  induction ys generalizing xs with
  | nil =>
    cases xs with
    | nil => intro x hx; simp at hx
    | cons a as => simp [isSubl] at h
  | cons b bs ih =>
    cases xs with
    | nil => intro x hx; simp at hx
    | cons a as =>
      rw [isSubl] at h
      by_cases hab : a = b
      · rw [if_pos hab] at h
        intro x hx
        rcases List.mem_cons.mp hx with h1 | h1
        · exact h1 ▸ hab ▸ List.mem_cons_self b bs
        · exact List.mem_cons_of_mem b (ih h x h1)
      · rw [if_neg hab] at h
        intro x hx
        exact List.mem_cons_of_mem b (ih h x hx)

theorem filter_isSubl {xs ys : List String} (h : isSubl xs ys = true)
    (hnd : ys.Nodup) : ys.filter (fun y => xs.contains y) = xs := by
  induction ys generalizing xs with
  | nil =>
    cases xs with
    | nil => rfl
    | cons a as => simp [isSubl] at h
  | cons b bs ih =>
    rcases List.nodup_cons.mp hnd with ⟨hb, hbs⟩
    cases xs with
    | nil =>
      apply List.filter_eq_nil_iff.mpr
      intro y _
      simp
    | cons a as =>
      rw [isSubl] at h
      by_cases hab : a = b
      · subst hab
        rw [if_pos rfl] at h
        rw [List.filter_cons, if_pos (contains_true_of_mem (List.mem_cons_self a as))]
        congr 1
        have hcongr : ∀ y ∈ bs, ((a :: as).contains y) = (as.contains y) := by
          intro y hy
          have hya : y ≠ a := fun hya => hb (hya ▸ hy)
          by_cases hyas : y ∈ as
          · rw [contains_true_of_mem (List.mem_cons_of_mem a hyas),
              contains_true_of_mem hyas]
          · rw [contains_false_of_not_mem hyas,
              contains_false_of_not_mem (by
                intro hm
                rcases List.mem_cons.mp hm with h1 | h1
                · exact hya h1
                · exact hyas h1)]
        rw [List.filter_congr hcongr]
        exact ih h hbs
      · rw [if_neg hab] at h
        have hbnot : b ∉ a :: as := fun hm => hb (mem_of_isSubl h b hm)
        rw [List.filter_cons, if_neg (by rw [contains_false_of_not_mem hbnot]; simp)]
        exact ih h hbs

theorem lookup_cons_self {α : Type} [BEq α] [LawfulBEq α] {β : Type}
    (a : α) (v : β) (l : List (α × β)) : ((a, v) :: l).lookup a = some v := by
  simp [List.lookup]

theorem lookup_cons_ne {α : Type} [BEq α] [LawfulBEq α] {β : Type}
    {a n : α} (v : β) (l : List (α × β)) (h : n ≠ a) :
    ((a, v) :: l).lookup n = l.lookup n := by
  rw [List.lookup_cons]
  simp [beq_eq_false_iff_ne.mpr h]

theorem lookup_append_right {α : Type} [BEq α] [LawfulBEq α] {β : Type}
    {l₁ l₂ : List (α × β)} {n : α} (h : ∀ q ∈ l₁, q.1 ≠ n) :
    (l₁ ++ l₂).lookup n = l₂.lookup n := by
  induction l₁ with
  | nil => rfl
  | cons q l ih =>
    obtain ⟨a, v⟩ := q
    rw [List.cons_append,
      lookup_cons_ne v _ (fun hna => (h (a, v) (List.mem_cons_self _ _)) hna.symm)]
    exact ih (fun q hq => h q (List.mem_cons_of_mem _ hq))

theorem lookup_zip_map {α : Type} (as : List String) (vs : List α)
    (rest : List (String × α)) (dflt : α) (hnd : as.Nodup)
    (hlen : as.length = vs.length) :
    as.map (fun n => (((as.zip vs) ++ rest).lookup n).getD dflt) = vs := by
  induction as generalizing vs with
  | nil =>
    cases vs with
    | nil => rfl
    | cons v vs' => simp at hlen
  | cons a as' ih =>
    cases vs with
    | nil => simp at hlen
    | cons v vs' =>
      rcases List.nodup_cons.mp hnd with ⟨ha, has⟩
      rw [List.map_cons]
      have h1 : ((((a :: as').zip (v :: vs')) ++ rest).lookup a).getD dflt = v := by
        rw [List.zip_cons_cons, List.cons_append, lookup_cons_self]
        rfl
      rw [h1]
      congr 1
      have h2 : ∀ n ∈ as',
          ((((a :: as').zip (v :: vs')) ++ rest).lookup n).getD dflt =
          (((as'.zip vs') ++ rest).lookup n).getD dflt := by
        intro n hn
        have hna : n ≠ a := fun hna => ha (hna ▸ hn)
        rw [List.zip_cons_cons, List.cons_append, lookup_cons_ne v _ hna]
      calc as'.map (fun n => ((((a :: as').zip (v :: vs')) ++ rest).lookup n).getD dflt)
          = as'.map (fun n => (((as'.zip vs') ++ rest).lookup n).getD dflt) :=
            List.map_eq_map_iff.mpr h2
        _ = vs' := ih vs' has (by simpa using hlen)

theorem inferS_stable {x : Scalar} (h : cellStable x = true) : inferS x = x := by
  cases x with
  | int n => rfl
  | str s =>
    simp only [cellStable, stableStr, Bool.and_eq_true] at h
    obtain ⟨⟨_, hparse⟩, _⟩ := h
    rw [inferS]
    cases hp : parseIntOpt s.data with
    | none => rfl
    | some n => rw [hp] at hparse; simp at hparse
  | npint n => simp [cellStable] at h
  | bool b => simp [cellStable] at h
  | null => simp [cellStable] at h

theorem map_inferS_id {l : List Scalar} (h : ∀ x ∈ l, cellStable x = true) :
    l.map inferS = l := by
  conv_rhs => rw [← List.map_id l]
  exact List.map_eq_map_iff.mpr (fun x hx => inferS_stable (h x hx))

theorem iColsNodup : iCols.Nodup := by decide

theorem readCsv_csvOf (d : DF) (h : dfCanon d = true) : readCsv (csvOf d) = d := by
  obtain ⟨idx, cols, rows⟩ := d
  simp only [dfCanon, Bool.and_eq_true] at h
  obtain ⟨⟨⟨⟨hsub, hne⟩, hcolsb⟩, hndb⟩, hrowsb⟩ := h
  have hcols : ∀ c ∈ cols, c ∉ iCols := by
    intro c hc
    have := List.all_eq_true.mp hcolsb c hc
    intro hm
    rw [contains_true_of_mem hm] at this
    simp at this
  have hnd : (idx ++ cols).Nodup := of_decide_eq_true hndb
  rcases List.nodup_append.mp hnd with ⟨hndi, hndc, hdisj⟩
  have hrows : ∀ r ∈ rows, r.1.length = idx.length ∧ r.2.length = cols.length ∧
      ∀ x ∈ r.1 ++ r.2, cellStable x = true := by
    intro r hr
    have := List.all_eq_true.mp hrowsb r hr
    simp only [Bool.and_eq_true, decide_eq_true_eq] at this
    exact ⟨this.1.1, this.1.2, fun x hx => List.all_eq_true.mp this.2 x hx⟩
  have hidxN : iCols.filter (fun c => (idx ++ cols).contains c) = idx := by
    have hco : ∀ c ∈ iCols, ((idx ++ cols).contains c) = (idx.contains c) := by
      intro c hc
      rw [contains_append]
      have hcf : cols.contains c = false := by
        by_cases hcc : c ∈ cols
        · exact absurd hc (hcols c hcc)
        · exact contains_false_of_not_mem hcc
      rw [hcf, Bool.or_false]
    rw [List.filter_congr hco]
    exact filter_isSubl hsub iColsNodup
  have hcolN : (idx ++ cols).filter (fun c => !(idx.contains c)) = cols := by
    rw [List.filter_append]
    have h1 : idx.filter (fun c => !(idx.contains c)) = [] :=
      List.filter_eq_nil_iff.mpr
        (fun c hc => by rw [contains_true_of_mem hc]; simp)
    have h2 : cols.filter (fun c => !(idx.contains c)) = cols :=
      List.filter_eq_self.mpr (fun c hc => by
        have hci : c ∉ idx := fun hm =>
          hcols c hc (mem_of_isSubl hsub c hm)
        rw [contains_false_of_not_mem hci]
        rfl)
    rw [h1, h2, List.nil_append]
  simp only [readCsv, csvOf, hidxN, hcolN, List.map_map]
  rw [DF.mk.injEq]
  refine ⟨rfl, rfl, ?_⟩
  conv_rhs => rw [← List.map_id rows]
  apply List.map_eq_map_iff.mpr
  intro r hr
  obtain ⟨iv, cv⟩ := r
  obtain ⟨hlen1, hlen2, hstab⟩ := hrows (iv, cv) hr
  simp only [Function.comp_apply, id_eq]
  have hinfer : (iv ++ cv).map inferS = iv ++ cv := map_inferS_id hstab
  rw [hinfer]
  have hzip : (idx ++ cols).zip (iv ++ cv) = idx.zip iv ++ cols.zip cv :=
    List.zip_append hlen1.symm
  rw [hzip]
  have hfst : idx.map (fun n =>
      (((idx.zip iv) ++ cols.zip cv).lookup n).getD .null) = iv :=
    lookup_zip_map idx iv (cols.zip cv) .null hndi hlen1.symm
  have hsnd : cols.map (fun n =>
      (((idx.zip iv) ++ cols.zip cv).lookup n).getD .null) = cv := by
    have hcon : ∀ n ∈ cols,
        ((((idx.zip iv) ++ cols.zip cv).lookup n).getD Scalar.null) =
        ((((cols.zip cv) ++ ([] : List (String × Scalar))).lookup n).getD
          Scalar.null) := by
      intro n hn
      rw [lookup_append_right (fun q hq => by
        have hq1 : q.1 ∈ idx := (List.of_mem_zip hq).1
        intro hqn
        exact (List.disjoint_right.mp hdisj hn) (hqn ▸ hq1)),
        List.append_nil]
    rw [List.map_eq_map_iff.mpr hcon]
    exact lookup_zip_map cols cv [] .null hndc hlen2.symm
  rw [hfst, hsnd]

/- ### Lemmas for the load/save round trip -/

theorem lookupS_append_right {k : String} {l1 l2 : Store}
    (h : ∀ q ∈ l1, q.1 ≠ k) : lookupS k (l1 ++ l2) = lookupS k l2 :=
  lookup_append_right h

theorem map_update_append {key : String} {v w : PVal} {acc : Store}
    (h : ∀ q ∈ acc, q.1 ≠ key) :
    (acc ++ [(key, v)]).map (fun p => if p.1 = key then (key, w) else p) =
    acc ++ [(key, w)] := by
  rw [List.map_append]
  congr 1
  · conv_rhs => rw [← List.map_id acc]
    exact List.map_eq_map_iff.mpr (fun q hq => by
      rw [if_neg (h q hq)]
      rfl)
  · simp

theorem not_contains_fst {α β : Type} [BEq α] [LawfulBEq α] {st : List (α × β)}
    {k : α} (h : ∀ q ∈ st, q.1 ≠ k) : (st.map Prod.fst).contains k = false := by
  apply contains_false_of_not_mem
  intro hm
  rcases List.mem_map.mp hm with ⟨q, hq, hqk⟩
  exact h q hq hqk

theorem insertS_fresh {st : Store} {k : String} {v : PVal}
    (h : ∀ q ∈ st, q.1 ≠ k) : insertS st k v = st ++ [(k, v)] := by
  rw [insertS, not_contains_fst h]
  rfl

theorem insertI_fresh {st : SubDict} {k : String} {v : IVal}
    (h : ∀ q ∈ st, q.1 ≠ k) : insertI st k v = st ++ [(k, v)] := by
  rw [insertI, not_contains_fst h]
  rfl

theorem vpat_ne_nil : vpat ≠ [] := by decide

theorem ppat_ne_nil : ppat ≠ [] := by decide

theorem append_uscore_vpat (l : List Char) :
    "variables".data ++ '_' :: l = vpat ++ l := by
  rw [List.append_cons]
  rfl

theorem append_uscore_ppat (l : List Char) :
    "parameters".data ++ '_' :: l = ppat ++ l := by
  rw [List.append_cons]
  rfl

theorem loadStep_top_df {acc : Store} {k : String} {d : DF}
    (hc : entryCanon (k, .df d) = true) (hf : ∀ q ∈ acc, q.1 ≠ k) :
    loadStep acc (k.data ++ '.' :: "csv".data, .csv (csvOf d)) =
    acc ++ [(k, .df d)] := by
  simp only [entryCanon, Bool.and_eq_true, Bool.not_eq_true'] at hc
  obtain ⟨⟨⟨hdf, hdot⟩, hv⟩, hp⟩ := hc
  rw [loadStep]
  simp only [hv, hp, if_false]
  have hext : extOf (k.data ++ '.' :: "csv".data) = "csv".data :=
    extOf_mk _ _ hdot (by decide)
  have hstem : stemOf (k.data ++ '.' :: "csv".data) = k.data :=
    stemOf_mk _ _ hdot (by decide)
  have hload : loadFileVal (k.data ++ '.' :: "csv".data) (.csv (csvOf d)) =
      .df d := by
    rw [loadFileVal, loadFileE, if_pos hext, readCsv_csvOf d hdf]
  rw [hload, hstem]
  show insertS acc k (.df d) = acc ++ [(k, .df d)]
  exact insertS_fresh hf

theorem loadStep_top_jsn {acc : Store} {k : String} {j : JVal}
    (hc : entryCanon (k, .jsn j) = true) (hf : ∀ q ∈ acc, q.1 ≠ k) :
    loadStep acc (k.data ++ '.' :: "json".data, .json (normJ j)) =
    acc ++ [(k, .jsn (normJ j))] := by
  simp only [entryCanon, Bool.and_eq_true, Bool.not_eq_true'] at hc
  obtain ⟨⟨hdot, hv⟩, hp⟩ := hc
  rw [loadStep]
  simp only [hv, hp, if_false]
  have hext : extOf (k.data ++ '.' :: "json".data) = "json".data :=
    extOf_mk _ _ hdot (by decide)
  have hstem : stemOf (k.data ++ '.' :: "json".data) = k.data :=
    stemOf_mk _ _ hdot (by decide)
  have hload : loadFileVal (k.data ++ '.' :: "json".data) (.json (normJ j)) =
      .jsn (normJ j) := by
    rw [loadFileVal, loadFileE, if_neg (by rw [hext]; decide), if_pos hext]
  rw [hload, hstem]
  show insertS acc k (.jsn (normJ j)) = acc ++ [(k, .jsn (normJ j))]
  exact insertS_fresh hf

theorem lookupS_cons_self (k : String) (v : PVal) (l : Store) :
    lookupS k ((k, v) :: l) = some v := lookup_cons_self k v l

theorem load_inner_vars (sub : SubDict) :
    ∀ (subAcc : SubDict) (acc : Store),
    (∀ q ∈ acc, q.1 ≠ "variables") →
    (∀ p ∈ sub, innerCanon "variables" p = true) →
    (∀ p ∈ sub, ∀ q ∈ subAcc, q.1 ≠ p.1) →
    ((sub.map Prod.fst).Nodup) →
    List.foldl loadStep (acc ++ [("variables", .dd subAcc)])
      (sub.flatMap (innerFiles "variables")) =
    acc ++ [("variables", .dd (subAcc ++ sub.map (fun p => (p.1, reconI p.2))))] := by
  induction sub with
  | nil =>
    intro subAcc acc hf hcan hfr hnd
    simp
  | cons hd rest ih =>
    intro subAcc acc hf hcan hfr hnd
    obtain ⟨k1, v1⟩ := hd
    have hc1 := hcan (k1, v1) (List.mem_cons_self _ _)
    simp only [innerCanon, Bool.and_eq_true, Bool.not_eq_true'] at hc1
    obtain ⟨⟨⟨hdot, hnv⟩, hnp⟩, hm⟩ := hc1
    have hfr1 : ∀ q ∈ subAcc, q.1 ≠ k1 :=
      fun q hq => hfr (k1, v1) (List.mem_cons_self _ _) q hq
    have hnd1 : k1 ∉ rest.map Prod.fst := (List.nodup_cons.mp hnd).1
    have hndr : (rest.map Prod.fst).Nodup := (List.nodup_cons.mp hnd).2
    have hfr' : ∀ p ∈ rest, ∀ q ∈ subAcc ++ [(k1, reconI v1)], q.1 ≠ p.1 := by
      intro p hp q hq
      rcases List.mem_append.mp hq with h1 | h1
      · exact hfr p (List.mem_cons_of_mem _ hp) q h1
      · rcases List.mem_singleton.mp h1 with rfl
        intro hk
        apply hnd1
        have hk' : k1 = p.1 := hk
        rw [hk']
        exact List.mem_map_of_mem Prod.fst hp
    have hcan' : ∀ p ∈ rest, innerCanon "variables" p = true :=
      fun p hp => hcan p (List.mem_cons_of_mem _ hp)
    have hstep : ∀ ext : String, ∀ c : FContent, dotFree ext.data = true →
        loadFileVal (vpat ++ k1.data ++ '.' :: ext.data) c = reconI v1 →
        loadStep (acc ++ [("variables", PVal.dd subAcc)])
          ("variables".data ++ '_' :: k1.data ++ '.' :: ext.data, c) =
        acc ++ [("variables", .dd (subAcc ++ [(k1, reconI v1)]))] := by
      intro ext c hext hload
      rw [loadStep]
      show (if containsSub vpat ("variables".data ++ '_' :: k1.data ++ '.' :: ext.data)
        then _ else _) = _
      have hfn : "variables".data ++ '_' :: k1.data ++ '.' :: ext.data =
          vpat ++ (k1.data ++ '.' :: ext.data) := append_uscore_vpat _
      have h1 : containsSub vpat
          ("variables".data ++ '_' :: k1.data ++ '.' :: ext.data) = true := by
        rw [hfn]
        exact containsSub_of_isPre (isPre_append _ _)
      rw [h1, if_pos rfl]
      have hstem : stemOf ("variables".data ++ '_' :: k1.data ++ '.' :: ext.data) =
          vpat ++ k1.data := by
        rw [hfn, ← List.append_assoc]
        exact stemOf_mk _ _ (by rw [dotFree_append, hdot]; decide) hext
      rw [hstem, replaceAllL_cancel vpat k1.data vpat_ne_nil hnv]
      have hload' : loadFileVal
          ("variables".data ++ '_' :: k1.data ++ '.' :: ext.data) c = reconI v1 := by
        rw [hfn]
        exact hload
      rw [hload']
      show insertSub (acc ++ [("variables", PVal.dd subAcc)]) "variables"
        (String.mk k1.data) (reconI v1) = _
      rw [insertSub]
      have hlk : lookupS "variables" (acc ++ [("variables", PVal.dd subAcc)]) =
          some (.dd subAcc) := by
        rw [lookupS_append_right hf]
        exact lookupS_cons_self _ _ _
      rw [hlk]
      show (acc ++ [("variables", PVal.dd subAcc)]).map (fun p =>
          if p.1 = "variables" then
            ("variables", .dd (insertI subAcc (String.mk k1.data) (reconI v1)))
          else p) = _
      rw [map_update_append hf]
      have : insertI subAcc (String.mk k1.data) (reconI v1) =
          subAcc ++ [(k1, reconI v1)] := insertI_fresh hfr1
      rw [this]
    have hgoal : ∀ fs1,
        (innerFiles "variables" (k1, v1) = fs1) →
        List.foldl loadStep (acc ++ [("variables", PVal.dd subAcc)])
          (((k1, v1) :: rest).flatMap (innerFiles "variables")) =
        acc ++ [("variables",
          .dd (subAcc ++ ((k1, v1) :: rest).map (fun p => (p.1, reconI p.2))))] := by
      intro fs1 hfs1
      rw [List.flatMap_cons, List.foldl_append]
      cases v1 with
      | df d =>
        have hmd : dfCanon d = true := by
          have hm2 : (dfCanon d && (if ("variables" : String) = "parameters" then
              !containsSub vpat
                ("variables".data ++ '_' :: k1.data ++ '.' :: "csv".data)
            else true)) = true := hm
          rw [if_neg (by decide), Bool.and_true] at hm2
          exact hm2
        show List.foldl loadStep
          (List.foldl loadStep (acc ++ [("variables", PVal.dd subAcc)])
            [("variables".data ++ '_' :: k1.data ++ '.' :: "csv".data,
              .csv (csvOf d))]) _ = _
        rw [List.foldl_cons, List.foldl_nil]
        rw [hstep "csv" (.csv (csvOf d)) (by decide) (by
          rw [loadFileVal, loadFileE,
            if_pos (extOf_mk _ _ (by rw [dotFree_append, hdot]; decide) (by decide)),
            readCsv_csvOf d hmd]
          rfl)]
        rw [ih (subAcc ++ [(k1, reconI (.df d))]) acc hf hcan' hfr' hndr]
        simp
      | jsn j =>
        cases j with
        | dict m =>
          show List.foldl loadStep
            (List.foldl loadStep (acc ++ [("variables", PVal.dd subAcc)])
              [("variables".data ++ '_' :: k1.data ++ '.' :: "json".data,
                .json (normJ (.dict m)))]) _ = _
          rw [List.foldl_cons, List.foldl_nil]
          rw [hstep "json" (.json (normJ (.dict m))) (by decide) (by
            rw [loadFileVal, loadFileE,
              if_neg (by
                rw [extOf_mk _ _ (by rw [dotFree_append, hdot]; decide) (by decide)]
                decide),
              if_pos (extOf_mk _ _ (by rw [dotFree_append, hdot]; decide) (by decide))]
            rfl)]
          rw [ih (subAcc ++ [(k1, reconI (.jsn (.dict m)))]) acc hf hcan' hfr' hndr]
          simp
        | scalar s => simp at hm
        | list xs => simp at hm
    exact hgoal (innerFiles "variables" (k1, v1)) rfl

theorem load_inner_pars (sub : SubDict) :
    ∀ (subAcc : SubDict) (acc : Store),
    (∀ q ∈ acc, q.1 ≠ "parameters") →
    (∀ p ∈ sub, innerCanon "parameters" p = true) →
    (∀ p ∈ sub, ∀ q ∈ subAcc, q.1 ≠ p.1) →
    ((sub.map Prod.fst).Nodup) →
    List.foldl loadStep (acc ++ [("parameters", .dd subAcc)])
      (sub.flatMap (innerFiles "parameters")) =
    acc ++ [("parameters", .dd (subAcc ++ sub.map (fun p => (p.1, reconI p.2))))] := by
  induction sub with
  | nil =>
    intro subAcc acc hf hcan hfr hnd
    simp
  | cons hd rest ih =>
    intro subAcc acc hf hcan hfr hnd
    obtain ⟨k1, v1⟩ := hd
    have hc1 := hcan (k1, v1) (List.mem_cons_self _ _)
    simp only [innerCanon, Bool.and_eq_true, Bool.not_eq_true'] at hc1
    obtain ⟨⟨⟨hdot, hnv⟩, hnp⟩, hm⟩ := hc1
    have hfr1 : ∀ q ∈ subAcc, q.1 ≠ k1 :=
      fun q hq => hfr (k1, v1) (List.mem_cons_self _ _) q hq
    have hnd1 : k1 ∉ rest.map Prod.fst := (List.nodup_cons.mp hnd).1
    have hndr : (rest.map Prod.fst).Nodup := (List.nodup_cons.mp hnd).2
    have hfr' : ∀ p ∈ rest, ∀ q ∈ subAcc ++ [(k1, reconI v1)], q.1 ≠ p.1 := by
      intro p hp q hq
      rcases List.mem_append.mp hq with h1 | h1
      · exact hfr p (List.mem_cons_of_mem _ hp) q h1
      · rcases List.mem_singleton.mp h1 with rfl
        intro hk
        apply hnd1
        have hk' : k1 = p.1 := hk
        rw [hk']
        exact List.mem_map_of_mem Prod.fst hp
    have hcan' : ∀ p ∈ rest, innerCanon "parameters" p = true :=
      fun p hp => hcan p (List.mem_cons_of_mem _ hp)
    have hstep : ∀ ext : String, ∀ c : FContent, dotFree ext.data = true →
        containsSub vpat ("parameters".data ++ '_' :: k1.data ++ '.' :: ext.data) =
          false →
        loadFileVal (ppat ++ k1.data ++ '.' :: ext.data) c = reconI v1 →
        loadStep (acc ++ [("parameters", PVal.dd subAcc)])
          ("parameters".data ++ '_' :: k1.data ++ '.' :: ext.data, c) =
        acc ++ [("parameters", .dd (subAcc ++ [(k1, reconI v1)]))] := by
      intro ext c hext hx hload
      rw [loadStep]
      show (if containsSub vpat
          ("parameters".data ++ '_' :: k1.data ++ '.' :: ext.data)
        then _ else _) = _
      rw [hx, if_neg (by simp)]
      have hfn : "parameters".data ++ '_' :: k1.data ++ '.' :: ext.data =
          ppat ++ (k1.data ++ '.' :: ext.data) := append_uscore_ppat _
      have h1 : containsSub ppat
          ("parameters".data ++ '_' :: k1.data ++ '.' :: ext.data) = true := by
        rw [hfn]
        exact containsSub_of_isPre (isPre_append _ _)
      rw [h1, if_pos rfl]
      have hstem : stemOf ("parameters".data ++ '_' :: k1.data ++ '.' :: ext.data) =
          ppat ++ k1.data := by
        rw [hfn, ← List.append_assoc]
        exact stemOf_mk _ _ (by rw [dotFree_append, hdot]; decide) hext
      rw [hstem, replaceAllL_cancel ppat k1.data ppat_ne_nil hnp]
      have hload' : loadFileVal
          ("parameters".data ++ '_' :: k1.data ++ '.' :: ext.data) c = reconI v1 := by
        rw [hfn]
        exact hload
      rw [hload']
      show insertSub (acc ++ [("parameters", PVal.dd subAcc)]) "parameters"
        (String.mk k1.data) (reconI v1) = _
      rw [insertSub]
      have hlk : lookupS "parameters" (acc ++ [("parameters", PVal.dd subAcc)]) =
          some (.dd subAcc) := by
        rw [lookupS_append_right hf]
        exact lookupS_cons_self _ _ _
      rw [hlk]
      show (acc ++ [("parameters", PVal.dd subAcc)]).map (fun p =>
          if p.1 = "parameters" then
            ("parameters", .dd (insertI subAcc (String.mk k1.data) (reconI v1)))
          else p) = _
      rw [map_update_append hf]
      have : insertI subAcc (String.mk k1.data) (reconI v1) =
          subAcc ++ [(k1, reconI v1)] := insertI_fresh hfr1
      rw [this]
    rw [List.flatMap_cons, List.foldl_append]
    cases v1 with
    | df d =>
      have hm2 : (dfCanon d && (if ("parameters" : String) = "parameters" then
          !containsSub vpat
            ("parameters".data ++ '_' :: k1.data ++ '.' :: "csv".data)
        else true)) = true := hm
      rw [if_pos rfl, Bool.and_eq_true, Bool.not_eq_true'] at hm2
      obtain ⟨hmd, hmx⟩ := hm2
      show List.foldl loadStep
        (List.foldl loadStep (acc ++ [("parameters", PVal.dd subAcc)])
          [("parameters".data ++ '_' :: k1.data ++ '.' :: "csv".data,
            .csv (csvOf d))]) _ = _
      rw [List.foldl_cons, List.foldl_nil]
      rw [hstep "csv" (.csv (csvOf d)) (by decide) hmx (by
        rw [loadFileVal, loadFileE,
          if_pos (extOf_mk _ _ (by rw [dotFree_append, hdot]; decide) (by decide)),
          readCsv_csvOf d hmd]
        rfl)]
      rw [ih (subAcc ++ [(k1, reconI (.df d))]) acc hf hcan' hfr' hndr]
      simp
    | jsn j =>
      cases j with
      | dict m =>
        have hm2 : ((if ("parameters" : String) = "parameters" then
            !containsSub vpat
              ("parameters".data ++ '_' :: k1.data ++ '.' :: "json".data)
          else true)) = true := hm
        rw [if_pos rfl, Bool.not_eq_true'] at hm2
        show List.foldl loadStep
          (List.foldl loadStep (acc ++ [("parameters", PVal.dd subAcc)])
            [("parameters".data ++ '_' :: k1.data ++ '.' :: "json".data,
              .json (normJ (.dict m)))]) _ = _
        rw [List.foldl_cons, List.foldl_nil]
        rw [hstep "json" (.json (normJ (.dict m))) (by decide) hm2 (by
          rw [loadFileVal, loadFileE,
            if_neg (by
              rw [extOf_mk _ _ (by rw [dotFree_append, hdot]; decide) (by decide)]
              decide),
            if_pos (extOf_mk _ _ (by rw [dotFree_append, hdot]; decide) (by decide))]
          rfl)]
        rw [ih (subAcc ++ [(k1, reconI (.jsn (.dict m)))]) acc hf hcan' hfr' hndr]
        simp
      | scalar s => simp at hm
      | list xs => simp at hm

theorem lookupS_none {acc : Store} {key : String}
    (hf : ∀ q ∈ acc, q.1 ≠ key) : lookupS key acc = none := by
  induction acc with
  | nil => rfl
  | cons q l ih =>
    obtain ⟨a, v⟩ := q
    have hne : key ≠ a :=
      fun h => (hf (a, v) (List.mem_cons_self _ _)) h.symm
    show ((a, v) :: l).lookup key = none
    rw [lookup_cons_ne v l hne]
    exact ih (fun q hq => hf q (List.mem_cons_of_mem _ hq))

theorem insertSub_bootstrap {acc : Store} {key k : String} {v : IVal}
    (hf : ∀ q ∈ acc, q.1 ≠ key) :
    insertSub acc key k v = insertSub (acc ++ [(key, .dd [])]) key k v := by
  rw [insertSub, insertSub, lookupS_none hf]
  have hlk : lookupS key (acc ++ [(key, .dd [])]) = some (.dd []) := by
    rw [lookupS_append_right hf]
    exact lookupS_cons_self _ _ _
  rw [hlk]
  show acc ++ [(key, PVal.dd [(k, v)])] =
    (acc ++ [(key, PVal.dd [])]).map (fun p =>
      if p.1 = key then (key, PVal.dd (insertI [] k v)) else p)
  rw [map_update_append hf]
  rfl

theorem loadStep_vars_bootstrap {acc : Store} {f : List Char × FContent}
    (hf : ∀ q ∈ acc, q.1 ≠ "variables")
    (hd : containsSub vpat f.1 = true) :
    loadStep acc f = loadStep (acc ++ [("variables", .dd [])]) f := by
  rw [loadStep, loadStep, hd]
  simp only [if_true]
  exact insertSub_bootstrap hf

theorem loadStep_pars_bootstrap {acc : Store} {f : List Char × FContent}
    (hf : ∀ q ∈ acc, q.1 ≠ "parameters")
    (hv : containsSub vpat f.1 = false) (hp : containsSub ppat f.1 = true) :
    loadStep acc f = loadStep (acc ++ [("parameters", .dd [])]) f := by
  rw [loadStep, loadStep, hv, hp]
  simp only [Bool.false_eq_true, if_false, if_true]
  exact insertSub_bootstrap hf

theorem innerFiles_vars_single {k1 : String} {v1 : IVal}
    (hc : innerCanon "variables" (k1, v1) = true) :
    ∃ f0, innerFiles "variables" (k1, v1) = [f0] ∧
      containsSub vpat f0.1 = true := by
  cases v1 with
  | df d =>
    refine ⟨_, rfl, ?_⟩
    show containsSub vpat ("variables".data ++ '_' :: (k1.data ++ '.' :: "csv".data)) = true
    rw [append_uscore_vpat]
    exact containsSub_of_isPre (isPre_append _ _)
  | jsn j =>
    cases j with
    | dict m =>
      refine ⟨_, rfl, ?_⟩
      show containsSub vpat
        ("variables".data ++ '_' :: (k1.data ++ '.' :: "json".data)) = true
      rw [append_uscore_vpat]
      exact containsSub_of_isPre (isPre_append _ _)
    | scalar s => simp [innerCanon] at hc
    | list xs => simp [innerCanon] at hc

theorem innerFiles_pars_single {k1 : String} {v1 : IVal}
    (hc : innerCanon "parameters" (k1, v1) = true) :
    ∃ f0, innerFiles "parameters" (k1, v1) = [f0] ∧
      containsSub vpat f0.1 = false ∧ containsSub ppat f0.1 = true := by
  simp only [innerCanon, Bool.and_eq_true, Bool.not_eq_true'] at hc
  obtain ⟨⟨⟨hdot, hnv⟩, hnp⟩, hm⟩ := hc
  cases v1 with
  | df d =>
    have hm2 : (dfCanon d && (if ("parameters" : String) = "parameters" then
        !containsSub vpat
          ("parameters".data ++ '_' :: k1.data ++ '.' :: "csv".data)
      else true)) = true := hm
    rw [if_pos rfl, Bool.and_eq_true, Bool.not_eq_true'] at hm2
    refine ⟨_, rfl, hm2.2, ?_⟩
    show containsSub ppat
      ("parameters".data ++ '_' :: (k1.data ++ '.' :: "csv".data)) = true
    rw [append_uscore_ppat]
    exact containsSub_of_isPre (isPre_append _ _)
  | jsn j =>
    cases j with
    | dict m =>
      have hm2 : ((if ("parameters" : String) = "parameters" then
          !containsSub vpat
            ("parameters".data ++ '_' :: k1.data ++ '.' :: "json".data)
        else true)) = true := hm
      rw [if_pos rfl, Bool.not_eq_true'] at hm2
      refine ⟨_, rfl, hm2, ?_⟩
      show containsSub ppat
        ("parameters".data ++ '_' :: (k1.data ++ '.' :: "json".data)) = true
      rw [append_uscore_ppat]
      exact containsSub_of_isPre (isPre_append _ _)
    | scalar s => simp at hm
    | list xs => simp at hm

theorem load_entry (e : String × PVal) (acc : Store)
    (hc : entryCanon e = true) (hf : ∀ q ∈ acc, q.1 ≠ e.1) :
    List.foldl loadStep acc (entryFiles e) = acc ++ [recon e] := by
  obtain ⟨k, v⟩ := e
  cases v with
  | df d =>
    show List.foldl loadStep acc
      [(k.data ++ '.' :: "csv".data, .csv (csvOf d))] = _
    rw [List.foldl_cons, List.foldl_nil, loadStep_top_df hc hf]
    rfl
  | jsn j =>
    show List.foldl loadStep acc
      [(k.data ++ '.' :: "json".data, .json (normJ j))] = _
    rw [List.foldl_cons, List.foldl_nil, loadStep_top_jsn hc hf]
    rfl
  | dd sub =>
    simp only [entryCanon, Bool.and_eq_true] at hc
    obtain ⟨⟨⟨hkor, hnemp⟩, hndb⟩, hcanb⟩ := hc
    have hnd : (sub.map Prod.fst).Nodup := of_decide_eq_true hndb
    have hcanAll : ∀ p ∈ sub, innerCanon k p = true :=
      fun p hp => List.all_eq_true.mp hcanb p hp
    cases sub with
    | nil => simp at hnemp
    | cons p0 rest =>
      obtain ⟨k0, v0⟩ := p0
      rcases Bool.or_eq_true_iff.mp hkor with hk | hk
      · have hkv : k = "variables" := by
          have := of_decide_eq_true (by exact hk)
          exact this
        subst hkv
        have hf' : ∀ q ∈ acc, q.1 ≠ "variables" := hf
        rcases innerFiles_vars_single
          (hcanAll (k0, v0) (List.mem_cons_self _ _)) with ⟨f0, hf0, hd0⟩
        show List.foldl loadStep acc
          (((k0, v0) :: rest).flatMap (innerFiles "variables")) = _
        rw [List.flatMap_cons, hf0, List.singleton_append, List.foldl_cons,
          loadStep_vars_bootstrap hf' hd0]
        have hstate : List.foldl loadStep
            (loadStep (acc ++ [("variables", PVal.dd [])]) f0)
            (rest.flatMap (innerFiles "variables")) =
            List.foldl loadStep (acc ++ [("variables", PVal.dd [])])
              (((k0, v0) :: rest).flatMap (innerFiles "variables")) := by
          rw [List.flatMap_cons, hf0, List.singleton_append, List.foldl_cons]
        rw [hstate]
        rw [load_inner_vars ((k0, v0) :: rest) [] acc hf' hcanAll
          (by intro p hp q hq; simp at hq) hnd]
        simp [recon]
      · have hkv : k = "parameters" := by
          have := of_decide_eq_true (by exact hk)
          exact this
        subst hkv
        have hf' : ∀ q ∈ acc, q.1 ≠ "parameters" := hf
        rcases innerFiles_pars_single
          (hcanAll (k0, v0) (List.mem_cons_self _ _)) with ⟨f0, hf0, hv0, hp0⟩
        show List.foldl loadStep acc
          (((k0, v0) :: rest).flatMap (innerFiles "parameters")) = _
        rw [List.flatMap_cons, hf0, List.singleton_append, List.foldl_cons,
          loadStep_pars_bootstrap hf' hv0 hp0]
        have hstate : List.foldl loadStep
            (loadStep (acc ++ [("parameters", PVal.dd [])]) f0)
            (rest.flatMap (innerFiles "parameters")) =
            List.foldl loadStep (acc ++ [("parameters", PVal.dd [])])
              (((k0, v0) :: rest).flatMap (innerFiles "parameters")) := by
          rw [List.flatMap_cons, hf0, List.singleton_append, List.foldl_cons]
        rw [hstate]
        rw [load_inner_pars ((k0, v0) :: rest) [] acc hf' hcanAll
          (by intro p hp q hq; simp at hq) hnd]
        simp [recon]

theorem recon_fst (e : String × PVal) : (recon e).1 = e.1 := by
  obtain ⟨k, v⟩ := e
  cases v <;> rfl

theorem loadStore_saveFiles_aux (S : Store) :
    ∀ acc : Store,
    ((S.map Prod.fst).Nodup) →
    (∀ e ∈ S, entryCanon e = true) →
    (∀ e ∈ S, ∀ q ∈ acc, q.1 ≠ e.1) →
    List.foldl loadStep acc (saveFiles S) = acc ++ S.map recon := by
  induction S with
  | nil =>
    intro acc _ _ _
    simp [saveFiles]
  | cons e rest ih =>
    intro acc hnd hcan hf
    show List.foldl loadStep acc ((e :: rest).flatMap entryFiles) = _
    rw [List.flatMap_cons, List.foldl_append]
    rw [load_entry e acc (hcan e (List.mem_cons_self _ _))
      (hf e (List.mem_cons_self _ _))]
    rw [show rest.flatMap entryFiles = saveFiles rest from rfl]
    rw [ih (acc ++ [recon e]) (List.nodup_cons.mp hnd).2
      (fun e' he' => hcan e' (List.mem_cons_of_mem _ he'))
      (by
        intro e' he' q hq
        rcases List.mem_append.mp hq with h1 | h1
        · exact hf e' (List.mem_cons_of_mem _ he') q h1
        · rcases List.mem_singleton.mp h1 with rfl
          rw [recon_fst]
          intro hee
          apply (List.nodup_cons.mp hnd).1
          rw [hee]
          exact List.mem_map_of_mem Prod.fst he')]
    simp

/-- Helper form of the round trip over canonical stores. -/
theorem loadStore_saveFiles (S : Store) (h : canonicalStore S = true) :
    loadStore (saveFiles S) = S.map recon := by
  simp only [canonicalStore, Bool.and_eq_true] at h
  obtain ⟨hnd, hall⟩ := h
  have := loadStore_saveFiles_aux S [] (of_decide_eq_true hnd)
    (fun e he => List.all_eq_true.mp hall e he)
    (by intro e _ q hq; simp at hq)
  simpa [loadStore] using this

/- ### Claim C1: the save/load round trip -/

/-- A concrete canonical store used by witnesses. -/
def sampleStore : Store :=
  [("log", .jsn (.dict [("name", .str "test"), ("model_type", .str "Model"),
      ("iterations", .npint 1)])),
   ("variables", .dd [("Model", .df ⟨["t"], ["pop"],
      [([.int 0], [.int 5]), ([.int 1], [.int 6])]⟩)]),
   ("parameters", .dd [("fixed", .jsn (.dict [("x", .npint 1)])),
      ("varied", .df ⟨["sample_id"], ["y"], [([.int 0], [.int 2])]⟩)]),
   ("measures", .df ⟨["run_id"], ["final"], [([.int 0], [.int 9])]⟩)]

/-- C1 (counterexample): the round trip fails for a store as the claim
quantifies over all of them — a nested entry holding a plain string is
skipped by `save`'s `isinstance` dispatch (neither a DataFrame nor a dict),
so its key is absent from the reloaded store instead of being reproduced. -/
theorem c1_roundtrip_fails :
    ¬ roundtripClaim [("x", .dd [("y", .jsn (.scalar (.str "hello")))])] := by
  simp only [roundtripClaim]
  decide

/-- C1 (amended): for canonical stores — tables indexed by recognized index
names with round-trip-stable cells, nested stores only under the
`variables`/`parameters` keys holding tables or flat mappings, keys that
avoid the reserved filename patterns — loading the saved files yields
exactly the store with table entries content-equal and scalar/mapping
entries value-equal up to numeric-type normalization (numpy integers become
Python integers). -/
theorem c1_roundtrip_canonical (S : Store) (h : canonicalStore S = true) :
    roundtripClaim S :=
  loadStore_saveFiles S h

/-- Witness for C1: the round trip evaluated on a concrete canonical store. -/
theorem c1_roundtrip_canonical_witness :
    canonicalStore sampleStore = true ∧ roundtripClaim sampleStore :=
  ⟨by decide, c1_roundtrip_canonical sampleStore (by decide)⟩

/- ### Claim C2: iteration replication in `_combine_pars` -/

/-- Modelled from the claim: each original row of the parameter table is
repeated `n` times contiguously (row r's parameters repeated for each of its
iterations, in run order), with a fresh zero-based `run_id`. -/
def specReplicatePars (d : DF) (n : Nat) : DF :=
  ⟨["run_id"], d.cols,
    ((d.rows.map Prod.snd).flatMap (fun r => List.replicate n r)).enum.map
      (fun q => ([Scalar.int q.1], q.2))⟩

/-- The two-row varied parameter table of the claim's instance. -/
def variedTable2 : DF :=
  ⟨["sample_id"], ["x"], [([.int 0], [.int 1]), ([.int 1], [.int 2])]⟩

/-- A store with `log.iterations = 3` and the two-row varied table. -/
def parsStore2 : Store :=
  [("log", .jsn (.dict [("iterations", .int 3)])),
   ("parameters", .df variedTable2)]

/-- C2 (counterexample): with `iterations = 3` and two distinct rows the code
returns the whole table repeated block-wise (`pd.concat([dfp] * 3)` gives
rows r0,r1,r0,r1,r0,r1), not each row repeated three times contiguously as
the claim states. -/
theorem c2_contiguous_fails :
    combinePars parsStore2 true true ≠
      Except.ok (some (specReplicatePars variedTable2 3)) ∧
    combinePars parsStore2 true true =
      Except.ok (some ⟨["run_id"], ["x"],
        [([.int 0], [.int 1]), ([.int 1], [.int 2]), ([.int 2], [.int 1]),
         ([.int 3], [.int 2]), ([.int 4], [.int 1]),
         ([.int 5], [.int 2])]⟩) := by
  constructor
  · decide
  · decide

/-- C2 (amended): when `log.iterations = n > 1` and `parameters` is a varied
table of nonzero shape, `_combine_pars` returns the whole row block repeated
`n` times (`pd.concat([dfp] * n)`): the original row sequence concatenated
`n` times, re-indexed with a fresh zero-based `run_id` 0..N-1 — each
original row appears `n` times, in table-block order, not contiguously. -/
theorem c2_block_replication (S : Store) (d : DF)
    (lm : List (String × Scalar)) (n : Int) (f : Bool)
    (hp : lookupS "parameters" S = some (.df d))
    (hlog : logDict S = some lm)
    (hiter : lm.lookup "iterations" = some (.int n))
    (hn : 1 < n)
    (hnz : (d.cols.isEmpty && (d.rows.map Prod.snd).isEmpty) = false) :
    combinePars S true f = Except.ok (some ⟨["run_id"], d.cols,
      ((List.replicate n.toNat (d.rows.map Prod.snd)).flatten).enum.map
        (fun q => ([Scalar.int q.1], q.2))⟩) := by
  have hb : parsBase (.df d) true f =
      .ok (some (d.cols, d.rows.map Prod.snd)) := rfl
  simp only [combinePars, hp, hb, hnz, hlog, hiter, Bool.false_eq_true,
    if_false]
  rw [if_pos hn]

/-- Witness for C2 (amended) at the claim's own instance. -/
theorem c2_block_replication_witness :
    combinePars parsStore2 true true = Except.ok (some ⟨["run_id"],
      variedTable2.cols,
      ((List.replicate (Int.toNat 3) (variedTable2.rows.map Prod.snd)).flatten).enum.map
        (fun q => ([Scalar.int q.1], q.2))⟩) :=
  c2_block_replication parsStore2 variedTable2 [("iterations", .int 3)] 3 true
    (by decide) (by decide) (by decide) (by decide) (by decide)

/- ### Claim C9: when `_combine_pars` returns no data -/

/-- A store whose assembled static-parameter table has one column and zero
rows. -/
def parsStore9 : Store :=
  [("log", .jsn (.dict [("iterations", .int 1)])),
   ("parameters", .dd [("fixed", .jsn (.dict [("a", .int 1)])),
      ("varied", .df ⟨["sample_id"], ["y"], [([.int 0], [.int 2])]⟩)])]

/-- C9 (counterexample): with include-varied off, the assembled table has one
fixed column and zero rows; the claim requires "no data", but
`_combine_pars` only cancels on shape exactly (0, 0) and returns the empty
one-column table. -/
theorem c9_zero_rows_not_none :
    combinePars parsStore9 false true =
      Except.ok (some ⟨["run_id"], ["a"], []⟩) ∧
    combinePars parsStore9 false true ≠ Except.ok none := by
  constructor
  · decide
  · decide

/-- C9 (amended): `_combine_pars` returns no data exactly when no source was
selected (`dfp is None`) or the assembled table has shape exactly (0, 0);
a table with zero rows but columns (or columns but zero rows) is returned
as an empty table, not `None`.  Iteration replication never turns a nonzero
shape into no data. -/
theorem c9_none_iff (S : Store) (p : PVal) (v f : Bool)
    (hp : lookupS "parameters" S = some p) :
    combinePars S v f = Except.ok none ↔
    (parsBase p v f = .ok none ∨ parsBase p v f = .ok (some ([], []))) := by
  cases hb : parsBase p v f with
  | error e =>
    simp [combinePars, hp, hb]
  | ok t? =>
    cases t? with
    | none => simp [combinePars, hp, hb]
    | some t =>
      obtain ⟨c, r⟩ := t
      by_cases hce : (c.isEmpty && r.isEmpty) = true
      · have hc0 : c = [] :=
          List.isEmpty_iff.mp ((Bool.and_eq_true _ _).mp hce).1
        have hr0 : r = [] :=
          List.isEmpty_iff.mp ((Bool.and_eq_true _ _).mp hce).2
        subst hc0
        subst hr0
        simp [combinePars, hp, hb]
      · constructor
        · intro h
          exfalso
          rw [combinePars, hp] at h
          simp only [hb] at h
          rw [if_neg hce] at h
          cases hl : logDict S with
          | none => rw [hl] at h; simp at h
          | some lm => rw [hl] at h; simp at h
        · intro h
          exfalso
          rcases h with h | h
          · simp at h
          · simp only [Except.ok.injEq, Option.some.injEq, Prod.mk.injEq] at h
            rw [h.1, h.2] at hce
            simp at hce

/-- Witness for C9 (amended): a nonempty varied table is not "no data". -/
theorem c9_none_iff_witness :
    ¬ (combinePars parsStore2 true true = Except.ok none) := by
  have h := (c9_none_iff parsStore2 (.df variedTable2) true true (by decide))
  intro hc
  rcases h.mp hc with h1 | h1 <;> exact absurd h1 (by decide)

/- ### Claim C3: the single-category `variables` case of `arrange` -/

/-- The single-category table used by the C3 counterexample. -/
def varsTable3 : DF := ⟨["t"], ["a", "b"], [([.int 0], [.int 1, .int 2])]⟩

/-- A store whose `variables` entry has exactly one category. -/
def varsStore3 : Store := [("variables", .dd [("Model", .df varsTable3)])]

/-- C3 (counterexample): requesting the specific variable `a` on a
single-category store still returns the full two-column table — the
single-entry branch of `_combine_vars` returns before any column filtering,
so the claimed restriction to the requested columns never happens. -/
theorem c3_column_filter_fails :
    arrange varsStore3 (some (.names ["a"])) .all .all true =
      Except.ok (some varsTable3, varsStore3) ∧
    varsTable3.cols ≠ ["a"] := by
  constructor
  · decide
  · decide

/-- C3 (amended): for a store whose `variables` entry is a nested mapping
with exactly one category, `arrange` (with the index kept) returns that one
category's table unchanged for every variables selector and object-type
filter — `'all'` behaves as the claim states, but a specific set of
requested names is ignored rather than restricting the columns, and the
store is left untouched on this path. -/
theorem c3_single_category (S : Store) (k : String) (d : DF)
    (vk ot : Filt)
    (hv : lookupS "variables" S = some (.dd [(k, .df d)])) :
    arrange S (some vk) ot .all true = Except.ok (some d, S) := by
  have hc : combineVars S ot vk = .ok (some d, S) := by
    rw [combineVars, hv]
  rw [arrange, hc]
  rfl

/-- Witness for C3 (amended) with a specific requested column. -/
theorem c3_single_category_witness :
    arrange varsStore3 (some (.names ["a"])) .all .all true =
      Except.ok (some varsTable3, varsStore3) :=
  c3_single_category varsStore3 "Model" varsTable3 (.names ["a"]) .all
    (by decide)

/- ### Claim C6: `DataDict.__eq__` -/

/-- C6 (counterexample): the empty store compares equal to a store holding an
extra key — `__eq__` iterates only the left store's keys and never notices
keys present only on the right, so equality does not fail when B has a key
that A lacks. -/
theorem c6_extra_key_ignored :
    ddEqE [] [("x", .jsn (.scalar (.int 1)))] = .ok true ∧
    (([] : Store).map Prod.fst) ≠
      (([("x", .jsn (.scalar (.int 1)))] : Store).map Prod.fst) := by
  constructor
  · rfl
  · decide

/-- C6 (amended): `A == B` holds exactly when every key of `A` appears in `B`
with an `__eq__`-equal value (tables content-equal via `DataFrame.equals`;
plain values by Python equality, where a non-`DataDict` value never equals a
nested `DataDict` because the reflected `DataDict.__eq__` returns `False`,
and comparing a plain value against a table raises); identical key sets are
not required — keys present only in `B` are ignored, so equality fails when
`A` has a key `B` lacks but not vice versa. -/
theorem c6_subset_characterization (A B : Store) :
    ddEqE A B = .ok true ↔
    ∀ p ∈ A, ∃ w, lookupS p.1 B = some w ∧ pValEqE p.2 w = .ok true := by
  induction A with
  | nil =>
    constructor
    · intro _ p hp
      simp at hp
    · intro _
      rfl
  | cons q rest ih =>
    cases hl : lookupS q.1 B with
    | none =>
      have hred : ddEqE (q :: rest) B = Except.ok false := by
        rw [ddEqE, hl]
      rw [hred]
      constructor
      · intro h
        simp at h
      · intro h
        rcases h q (List.mem_cons_self _ _) with ⟨w, hw, _⟩
        rw [hl] at hw
        simp at hw
    | some w =>
      have hred : ddEqE (q :: rest) B =
          (match pValEqE q.2 w with
           | Except.error e => Except.error e
           | Except.ok false => Except.ok false
           | Except.ok true => ddEqE rest B) := by
        rw [ddEqE, hl]
      rw [hred]
      cases he : pValEqE q.2 w with
      | error e =>
        constructor
        · intro h
          simp at h
        · intro h
          rcases h q (List.mem_cons_self _ _) with ⟨w', hw', heq⟩
          rw [hl] at hw'
          rcases Option.some.inj hw' with rfl
          rw [he] at heq
          simp at heq
      | ok b =>
        cases b with
        | false =>
          constructor
          · intro h
            simp at h
          · intro h
            rcases h q (List.mem_cons_self _ _) with ⟨w', hw', heq⟩
            rw [hl] at hw'
            rcases Option.some.inj hw' with rfl
            rw [he] at heq
            simp at heq
        | true =>
          constructor
          · intro h p hp
            rcases List.mem_cons.mp hp with rfl | hp'
            · exact ⟨w, hl, he⟩
            · exact ih.mp h p hp'
          · intro h
            exact ih.mpr (fun p hp => h p (List.mem_cons_of_mem _ hp))

/-- Witness for C6 (amended): a store is `__eq__`-below a store with one
extra entry. -/
theorem c6_subset_characterization_witness :
    ddEqE [("a", .jsn (.scalar (.int 1)))]
      [("a", .jsn (.scalar (.npint 1))), ("b", .df varsTable3)] = .ok true :=
  (c6_subset_characterization _ _).mpr (by
    intro p hp
    rcases List.mem_singleton.mp hp with rfl
    exact ⟨.jsn (.scalar (.npint 1)), by decide, by decide⟩)

/- ### Claim C7: the save collision -/

/-- C7: saving twice with the same explicit experiment name, id and base path
fails on the second call (`makedirs` raises `FileExistsError` before any file
is written) and the first experiment's directory contents are untouched. -/
theorem c7_save_collision (S S2 : Store) (name : String) (id : Int)
    (base : String) (fs fs' : FS)
    (h : saveStore S name id base fs = .ok fs') :
    saveStore S2 name id base fs' = .error () ∧
    fs'.lookup (expDirPath base name id) = some (saveFiles S) := by
  rw [saveStore] at h
  by_cases hc : ((fs.map Prod.fst).contains (expDirPath base name id)) = true
  · rw [if_pos hc] at h
    exact absurd h (by simp)
  · rw [if_neg hc] at h
    have hfs' : fs' = fs ++ [(expDirPath base name id, saveFiles S)] :=
      (Except.ok.inj h).symm
    have hnot : ∀ q ∈ fs, q.1 ≠ expDirPath base name id := by
      intro q hq hqe
      exact hc (contains_true_of_mem (hqe ▸ List.mem_map_of_mem Prod.fst hq))
    constructor
    · rw [saveStore, if_pos]
      rw [hfs', List.map_append]
      exact contains_true_of_mem
        (List.mem_append_right _ (by simp))
    · rw [hfs', lookup_append_right hnot, lookup_cons_self]

/-- Witness for C7 at a concrete store and file system. -/
theorem c7_save_collision_witness :
    saveStore sampleStore "my exp" 1 "ap_output"
      [(expDirPath "ap_output" "my exp" 1, saveFiles sampleStore)] =
      .error () ∧
    ([(expDirPath "ap_output" "my exp" 1,
        saveFiles sampleStore)] : FS).lookup
      (expDirPath "ap_output" "my exp" 1) = some (saveFiles sampleStore) :=
  c7_save_collision sampleStore sampleStore "my exp" 1 "ap_output" [] _
    (by decide)

/- ### Claim C8: the id chosen by `save` without an explicit id -/

/-- C8 (counterexample): with a sibling directory `myexp_7` that merely
contains `exp` as a substring, the code chooses id 8 while the claim's exact
`{exp_name}_{N}` pattern matches nothing and predicts 1. -/
theorem c8_substring_matters :
    newExpId "exp" ["myexp_7"] = .ok 8 ∧
    specNewExpId "exp" ["myexp_7"] = 1 ∧ (8 : Int) ≠ 1 := by
  refine ⟨by decide, by decide, by decide⟩

/-- C8 (amended): the chosen id is `max(N) + 1` over the sibling directory
names that contain the experiment name as a substring (not only exact
`{exp_name}_{N}` matches), where `N` is the integer parsed from the text
after the last underscore (1 when no sibling contains the name); a
containing name whose last segment is not an integer makes the call raise
`ValueError` instead. -/
theorem c8_newExpId (name : String) (dirs : List String) (ids : List Int)
    (h : parseIds (dirs.filter (fun s => containsSub name.data s.data)) =
      .ok ids) :
    newExpId name dirs =
      .ok ((if ids.isEmpty then 0 else maxIds ids) + 1) := by
  rw [newExpId, lastExpId]
  cases hd : (dirs.filter (fun s => containsSub name.data s.data)) with
  | nil =>
    rw [hd] at h
    have hids : ids = [] := (Except.ok.inj h).symm
    subst hids
    rfl
  | cons x xs =>
    rw [hd] at h
    have hne : ids ≠ [] := by
      intro hids
      subst hids
      rw [parseIds] at h
      cases hx : parseIntOpt ((splitOnChar '_' x.data).getLastD []) with
      | none => rw [hx] at h; simp at h
      | some n =>
        rw [hx] at h
        cases hxs : parseIds xs with
        | error e => rw [hxs] at h; simp at h
        | ok ns => rw [hxs] at h; simp at h
    simp only [List.isEmpty_cons, Bool.false_eq_true, if_false, h]
    rw [if_neg (by
      intro hids
      exact hne (List.isEmpty_iff.mp hids))]
    rfl

/-- Witness for C8 (amended). -/
theorem c8_newExpId_witness :
    newExpId "exp" ["exp_1", "notes", "exp_3"] =
      .ok ((if ([1, 3] : List Int).isEmpty then 0 else maxIds [1, 3]) + 1) :=
  c8_newExpId "exp" ["exp_1", "notes", "exp_3"] [1, 3] (by decide)

example : newExpId "exp" ["exp_1", "notes", "exp_3"] = .ok 4 := by decide

/- ### Claim C10: a failing file still adds its key with `None` -/

/-- C10: when `load_file` fails on a file (for instance an unsupported
extension), `_load`'s loop still stores the file's stem with value `None`
and goes on to process the remaining files. -/
theorem c10_failed_file_key_none (fs1 fs2 : List (List Char × FContent))
    (f : List Char × FContent)
    (hv : containsSub vpat f.1 = false) (hp : containsSub ppat f.1 = false)
    (he : loadFileE f.1 f.2 = .error ()) :
    loadStore (fs1 ++ f :: fs2) =
    List.foldl loadStep
      (insertS (loadStore fs1) (String.mk (stemOf f.1))
        (.jsn (.scalar .null))) fs2 := by
  rw [loadStore, loadStore, List.foldl_append, List.foldl_cons]
  have hstep : loadStep (List.foldl loadStep [] fs1) f =
      insertS (List.foldl loadStep [] fs1) (String.mk (stemOf f.1))
        (.jsn (.scalar .null)) := by
    rw [loadStep, hv, hp]
    simp only [Bool.false_eq_true, if_false]
    have hval : loadFileVal f.1 f.2 = pyNone := by
      rw [loadFileVal, he]
    rw [hval]
    rfl
  rw [hstep]

/-- Witness for C10: a `.txt` file between two good files ends up as a
`None`-valued key while both neighbors load. -/
theorem c10_failed_file_key_none_witness :
    loadStore [("log".data ++ '.' :: "json".data,
        .json (.dict [("name", .str "test")])),
      ("notes".data ++ '.' :: "txt".data, .other),
      ("measures".data ++ '.' :: "csv".data,
        .csv ⟨["run_id", "final"], [[.int 0, .int 9]]⟩)] =
    List.foldl loadStep
      (insertS (loadStore [("log".data ++ '.' :: "json".data,
          .json (.dict [("name", .str "test")]))])
        (String.mk (stemOf ("notes".data ++ '.' :: "txt".data)))
        (.jsn (.scalar .null)))
      [("measures".data ++ '.' :: "csv".data,
        .csv ⟨["run_id", "final"], [[.int 0, .int 9]]⟩)] :=
  c10_failed_file_key_none
    [("log".data ++ '.' :: "json".data, .json (.dict [("name", .str "test")]))]
    [("measures".data ++ '.' :: "csv".data,
      .csv ⟨["run_id", "final"], [[.int 0, .int 9]]⟩)]
    ("notes".data ++ '.' :: "txt".data, .other)
    (by decide) (by decide) (by decide)

/- ### Lemmas for the multi-category `_combine_vars` branch -/

theorem combineVars_dd_multi (S : Store) (sub : SubDict) (ot vk : Filt)
    (hv : lookupS "variables" S = some (.dd sub)) (hlen : 2 ≤ sub.length) :
    combineVars S ot vk = combineVarsMulti S sub ot vk := by
  rw [combineVars, hv]
  cases sub with
  | nil => simp at hlen
  | cons a tail =>
    cases tail with
    | nil => simp at hlen
    | cons b rest =>
      obtain ⟨a1, a2⟩ := a
      cases a2 <;> rfl

theorem asDFs_map (dfs : List (String × DF)) :
    asDFs (dfs.map (fun p => (p.1, IVal.df p.2))) = .ok dfs := by
  induction dfs with
  | nil => rfl
  | cons q rest ih =>
    rw [List.map_cons, asDFs]
    rw [ih]

theorem concatTyped_aligned (l : List (String × DF))
    (inames cnames : List String) (hne : l ≠ [])
    (hsh : ∀ p ∈ l, p.2.idxNames = inames ∧ p.2.cols = cnames) :
    concatTyped l = .ok ⟨"obj_type" :: inames, cnames,
      l.flatMap (fun p =>
        p.2.rows.map (fun r => (Scalar.str p.1 :: r.1, r.2)))⟩ := by
  cases l with
  | nil => exact absurd rfl hne
  | cons q rest =>
    rw [concatTyped]
    have hq := hsh q (List.mem_cons_self _ _)
    have hall : rest.all (fun p =>
        p.2.idxNames == q.2.idxNames && p.2.cols == q.2.cols) = true := by
      apply List.all_eq_true.mpr
      intro p hp
      have hp' := hsh p (List.mem_cons_of_mem _ hp)
      rw [Bool.and_eq_true]
      constructor
      · exact beq_iff_eq.mpr (hp'.1.trans hq.1.symm)
      · exact beq_iff_eq.mpr (hp'.2.trans hq.2.symm)
    rw [hall, if_pos rfl, hq.1, hq.2]

theorem flatMap_rows_map (dfs : List (String × DF)) (mt : String) :
    (dfs.map (fun p => if p.1 = mt then (p.1, objIdInsert p.2) else p)).flatMap
      (fun p => p.2.rows.map (fun r => (Scalar.str p.1 :: r.1, r.2))) =
    dfs.flatMap (fun p =>
      (if p.1 = mt then objIdInsert p.2 else p.2).rows.map
        (fun r => (Scalar.str p.1 :: r.1, r.2))) := by
  induction dfs with
  | nil => rfl
  | cons q rest ih =>
    rw [List.map_cons, List.flatMap_cons, List.flatMap_cons, ih]
    congr 1
    by_cases hq : q.1 = mt
    · rw [if_pos hq, if_pos hq]
    · rw [if_neg hq, if_neg hq]

/-- Characterization of `_combine_vars` on a multi-category store whose
tables align after the `obj_id` insertion: the model-type category's rows
gain the `obj_id = 0` level immediately before the last index level, the
other categories keep their levels, every row gains a leading `obj_type`
level, and the stored model-type table is mutated in place. -/
theorem combineVars_multiCat (S : Store) (dfs : List (String × DF))
    (lm : List (String × Scalar)) (mt : String)
    (inames cnames : List String)
    (hlen : 2 ≤ dfs.length)
    (hv : lookupS "variables" S =
      some (.dd (dfs.map (fun p => (p.1, IVal.df p.2)))))
    (hlog : logDict S = some lm)
    (hmt : lm.lookup "model_type" = some (.str mt))
    (hmem : mt ∈ dfs.map Prod.fst)
    (hshape : ∀ p ∈ dfs, p.2.cols = cnames ∧
      (if p.1 = mt then insBL p.2.idxNames "obj_id" else p.2.idxNames) =
        inames) :
    combineVars S .all .all = .ok (some ⟨"obj_type" :: inames, cnames,
      dfs.flatMap (fun p =>
        (if p.1 = mt then objIdInsert p.2 else p.2).rows.map
          (fun r => (Scalar.str p.1 :: r.1, r.2)))⟩,
      mutVars S mt) := by
  rw [combineVars_dd_multi S _ .all .all hv (by simpa using hlen)]
  have hcont : ((dfs.map Prod.fst).contains mt) = true :=
    contains_true_of_mem hmem
  simp only [combineVarsMulti, asDFs_map, hlog, hmt, hcont, if_true]
  have hne : dfs.map (fun p => if p.1 = mt then (p.1, objIdInsert p.2) else p)
      ≠ [] := by
    cases dfs with
    | nil => simp at hlen
    | cons a rest => simp
  have hemp : (dfs.map (fun p =>
      if p.1 = mt then (p.1, objIdInsert p.2) else p)).isEmpty = false := by
    cases h : (dfs.map (fun p =>
      if p.1 = mt then (p.1, objIdInsert p.2) else p)).isEmpty with
    | false => rfl
    | true => exact absurd (List.isEmpty_iff.mp h) hne
  rw [hemp]
  simp only [Bool.false_eq_true, if_false]
  have hcc := concatTyped_aligned
    (dfs.map (fun p => if p.1 = mt then (p.1, objIdInsert p.2) else p))
    inames cnames hne (by
      intro p hp
      rcases List.mem_map.mp hp with ⟨q, hq, hqp⟩
      have hs := hshape q hq
      by_cases hqm : q.1 = mt
      · rw [if_pos hqm] at hqp
        subst hqp
        refine ⟨?_, hs.1⟩
        show insBL q.2.idxNames "obj_id" = inames
        rw [← hs.2, if_pos hqm]
      · rw [if_neg hqm] at hqp
        subst hqp
        refine ⟨?_, hs.1⟩
        have h2 := hs.2
        rw [if_neg hqm] at h2
        exact h2)
  rw [hcc, flatMap_rows_map]

theorem lookup_mutVars_ne (S : Store) (mt k' : String)
    (h : k' ≠ "variables") :
    lookupS k' (mutVars S mt) = lookupS k' S := by
  induction S with
  | nil => rfl
  | cons q rest ih =>
    obtain ⟨qk, qv⟩ := q
    rw [mutVars, List.map_cons]
    by_cases hqk : qk = "variables"
    · subst hqk
      exact (lookup_cons_ne _ _ h).trans
        (ih.trans (lookup_cons_ne _ _ h).symm)
    · show lookupS k' ((if qk = "variables" then _ else (qk, qv)) :: _) = _
      rw [if_neg hqk]
      by_cases hkq : k' = qk
      · subst hkq
        exact (lookup_cons_self _ _ _).trans (lookup_cons_self _ _ _).symm
      · exact (lookup_cons_ne _ _ hkq).trans
          (ih.trans (lookup_cons_ne _ _ hkq).symm)

theorem lookup_mutVars_vars (S : Store) (mt : String) (sub : SubDict)
    (hv : lookupS "variables" S = some (.dd sub)) :
    lookupS "variables" (mutVars S mt) =
      some (.dd (sub.map (fun p =>
        if p.1 = mt then
          (p.1, match p.2 with
            | IVal.df d => IVal.df (addConstCol d "obj_id" (.int 0))
            | x => x)
        else p))) := by
  induction S with
  | nil => exact absurd hv (by simp [lookupS])
  | cons q rest ih =>
    obtain ⟨qk, qv⟩ := q
    rw [mutVars, List.map_cons]
    by_cases hqk : qk = "variables"
    · subst hqk
      have hqv : qv = .dd sub := by
        have hh : lookupS "variables" (("variables", qv) :: rest) = some qv :=
          lookup_cons_self _ qv _
        rw [hh] at hv
        exact Option.some.inj hv
      subst hqv
      exact lookup_cons_self _ _ _
    · show lookupS "variables"
        ((if qk = "variables" then _ else (qk, qv)) :: _) = _
      rw [if_neg hqk]
      have hne : ("variables" : String) ≠ qk := fun hh => hqk hh.symm
      have hv' : lookupS "variables" rest = some (.dd sub) := by
        rw [show lookupS "variables" ((qk, qv) :: rest) =
          lookupS "variables" rest from lookup_cons_ne qv _ hne] at hv
        exact hv
      exact (lookup_cons_ne _ _ hne).trans (ih hv')

/- ### Claim C4: the `obj_id` level for the model-type category -/

/-- C4: on a multi-category `variables` store whose tables align after the
insertion, `_combine_vars` gives the model-type category's rows an
`obj_id = 0` index level immediately before the last level, leaves every
other category's index levels as they were, and prefixes every row with an
`obj_type` level carrying the category key. -/
theorem c4_objid_level (S : Store) (dfs : List (String × DF))
    (lm : List (String × Scalar)) (mt : String)
    (inames cnames : List String)
    (hlen : 2 ≤ dfs.length)
    (hv : lookupS "variables" S =
      some (.dd (dfs.map (fun p => (p.1, IVal.df p.2)))))
    (hlog : logDict S = some lm)
    (hmt : lm.lookup "model_type" = some (.str mt))
    (hmem : mt ∈ dfs.map Prod.fst)
    (hshape : ∀ p ∈ dfs, p.2.cols = cnames ∧
      (if p.1 = mt then insBL p.2.idxNames "obj_id" else p.2.idxNames) =
        inames) :
    combineVars S .all .all = .ok (some ⟨"obj_type" :: inames, cnames,
      dfs.flatMap (fun p =>
        (if p.1 = mt then objIdInsert p.2 else p.2).rows.map
          (fun r => (Scalar.str p.1 :: r.1, r.2)))⟩,
      mutVars S mt) :=
  combineVars_multiCat S dfs lm mt inames cnames hlen hv hlog hmt hmem hshape

/-- The two-category store used by the C4/C5 witnesses. -/
def varsStore5 : Store :=
  [("log", .jsn (.dict [("model_type", .str "Model")])),
   ("variables", .dd [("Model", .df ⟨["t"], ["x"], [([.int 0], [.int 1])]⟩),
     ("Agent", .df ⟨["obj_id", "t"], ["x"],
       [([.int 1, .int 0], [.int 7])]⟩)])]

/-- Its per-category tables. -/
def varsDfs5 : List (String × DF) :=
  [("Model", ⟨["t"], ["x"], [([.int 0], [.int 1])]⟩),
   ("Agent", ⟨["obj_id", "t"], ["x"], [([.int 1, .int 0], [.int 7])]⟩)]

/-- Witness for C4 at the two-category store. -/
theorem c4_objid_level_witness :
    combineVars varsStore5 .all .all =
      .ok (some ⟨"obj_type" :: ["obj_id", "t"], ["x"],
        varsDfs5.flatMap (fun p =>
          (if p.1 = "Model" then objIdInsert p.2 else p.2).rows.map
            (fun r => (Scalar.str p.1 :: r.1, r.2)))⟩,
      mutVars varsStore5 "Model") :=
  c4_objid_level varsStore5 varsDfs5 [("model_type", .str "Model")] "Model"
    ["obj_id", "t"] ["x"] (by decide) (by decide) (by decide) (by decide)
    (by decide) (by decide)

/- ### Claim C5: the frame effect of `arrange` -/

/-- The combined table of the C5 counterexample store. -/
def combined5 : DF :=
  ⟨["obj_type", "obj_id", "t"], ["x"],
    [([.str "Model", .int 0, .int 0], [.int 1]),
     ([.str "Agent", .int 1, .int 0], [.int 7])]⟩

/-- C5 (counterexample): arranging the two-category store changes the store —
the stored model-type table gains an `obj_id` column through the in-place
`df['obj_id'] = 0`, so the store after `arrange` differs from the original. -/
theorem c5_store_mutated :
    arrange varsStore5 (some .all) .all .all true =
      .ok (some combined5, mutVars varsStore5 "Model") ∧
    mutVars varsStore5 "Model" ≠ varsStore5 := by
  constructor
  · decide
  · decide

/-- C5 (amended): with no parameters or measures requested, `arrange` leaves
every entry except `variables` unchanged; within `variables` only the
model-type category changes, gaining a constant `obj_id = 0` column in
place (its index untouched), as fallout of `_combine_vars` aliasing the
stored table. -/
theorem c5_frame (S : Store) (dfs : List (String × DF))
    (lm : List (String × Scalar)) (mt : String)
    (inames cnames : List String)
    (hlen : 2 ≤ dfs.length)
    (hv : lookupS "variables" S =
      some (.dd (dfs.map (fun p => (p.1, IVal.df p.2)))))
    (hlog : logDict S = some lm)
    (hmt : lm.lookup "model_type" = some (.str mt))
    (hmem : mt ∈ dfs.map Prod.fst)
    (hshape : ∀ p ∈ dfs, p.2.cols = cnames ∧
      (if p.1 = mt then insBL p.2.idxNames "obj_id" else p.2.idxNames) =
        inames) :
    (∃ df, arrange S (some .all) .all .all true =
      .ok (some df, mutVars S mt)) ∧
    (∀ k', k' ≠ "variables" → lookupS k' (mutVars S mt) = lookupS k' S) ∧
    lookupS "variables" (mutVars S mt) =
      some (.dd ((dfs.map (fun p => (p.1, IVal.df p.2))).map (fun p =>
        if p.1 = mt then
          (p.1, match p.2 with
            | IVal.df d => IVal.df (addConstCol d "obj_id" (.int 0))
            | x => x)
        else p))) := by
  have hc := combineVars_multiCat S dfs lm mt inames cnames hlen hv hlog hmt
    hmem hshape
  have harr : arrange S (some .all) .all .all true =
      .ok (some ⟨"obj_type" :: inames, cnames, dfs.flatMap (fun p =>
        (if p.1 = mt then objIdInsert p.2 else p.2).rows.map
          (fun r => (Scalar.str p.1 :: r.1, r.2)))⟩, mutVars S mt) := by
    rw [arrange, hc]
    rfl
  exact ⟨⟨_, harr⟩, fun k' hk => lookup_mutVars_ne S mt k' hk,
    lookup_mutVars_vars S mt _ hv⟩

/-- Witness for C5 (amended) at the two-category store. -/
theorem c5_frame_witness :
    (∃ df, arrange varsStore5 (some .all) .all .all true =
      .ok (some df, mutVars varsStore5 "Model")) ∧
    (∀ k', k' ≠ "variables" →
      lookupS k' (mutVars varsStore5 "Model") = lookupS k' varsStore5) ∧
    lookupS "variables" (mutVars varsStore5 "Model") =
      some (.dd ((varsDfs5.map (fun p => (p.1, IVal.df p.2))).map (fun p =>
        if p.1 = "Model" then
          (p.1, match p.2 with
            | IVal.df d => IVal.df (addConstCol d "obj_id" (.int 0))
            | x => x)
        else p))) :=
  c5_frame varsStore5 varsDfs5 [("model_type", .str "Model")] "Model"
    ["obj_id", "t"] ["x"] (by decide) (by decide) (by decide) (by decide)
    (by decide) (by decide)
